import Mathlib

/-!
Verification development for the Himalia blockchain node.

Shallow embedding of the Rust sources:
bytes are lists of naturals below 256, machine words are naturals reduced
modulo two to the word size, fallible code returns Option or Except, and
code that consumes randomness or the system clock (UUID tags, ECDSA
signatures, timestamps) takes that data as an explicit argument.
-/

set_option maxRecDepth 100000

/-! ## Basic byte and number helpers -/

def M32 : Nat := 4294967296

/-- Least-significant-digit-first base-b digits of n, with an explicit fuel
bound (fuel at least n suffices). -/
def toBaseLE (b : Nat) : Nat → Nat → List Nat
  | 0, _ => []
  | fuel + 1, n => if n = 0 then [] else n % b :: toBaseLE b fuel (n / b)

/-- Value of a least-significant-digit-first base-b digit list. -/
def fromLE (b : Nat) : List Nat → Nat
  | [] => 0
  | d :: rest => d + b * fromLE b rest

/-- Value of a big-endian digit list. -/
def fromBE (b : Nat) (l : List Nat) : Nat := fromLE b l.reverse

/-- Split a list into chunks of n elements; fuel bounds the recursion. -/
def chunksOf (n : Nat) : Nat → List Nat → List (List Nat)
  | 0, _ => []
  | _, [] => []
  | fuel + 1, l => l.take n :: chunksOf n fuel (l.drop n)

/-- Big-endian bytes of a 32-bit word. -/
def wordBytesBE (w : Nat) : List Nat :=
  [w / 16777216 % 256, w / 65536 % 256, w / 256 % 256, w % 256]

/-- Little-endian bytes of a 32-bit word. -/
def wordBytesLE (w : Nat) : List Nat :=
  [w % 256, w / 256 % 256, w / 65536 % 256, w / 16777216 % 256]

/-- Big-endian bytes of a 64-bit word. -/
def u64be (n : Nat) : List Nat :=
  [n / 72057594037927936 % 256, n / 281474976710656 % 256,
   n / 1099511627776 % 256, n / 4294967296 % 256,
   n / 16777216 % 256, n / 65536 % 256, n / 256 % 256, n % 256]

/-- Little-endian bytes of a 64-bit word. -/
def u64le (n : Nat) : List Nat :=
  [n % 256, n / 256 % 256, n / 65536 % 256, n / 16777216 % 256,
   n / 4294967296 % 256, n / 1099511627776 % 256,
   n / 281474976710656 % 256, n / 72057594037927936 % 256]

/-- Big-endian two's-complement bytes of an i64 value. -/
def i64be (v : Int) : List Nat := u64be ((v % 18446744073709551616).toNat)

/-- Pack big-endian 4-byte groups into 32-bit words. -/
def bytesToWordsBE : List Nat → List Nat
  | b0 :: b1 :: b2 :: b3 :: rest => (((b0 * 256 + b1) * 256 + b2) * 256 + b3) :: bytesToWordsBE rest
  | _ => []

/-- Pack little-endian 4-byte groups into 32-bit words. -/
def bytesToWordsLE : List Nat → List Nat
  | b0 :: b1 :: b2 :: b3 :: rest => (((b3 * 256 + b2) * 256 + b1) * 256 + b0) :: bytesToWordsLE rest
  | _ => []

/-- Rotate a 32-bit word right by n bits. -/
def rotr32 (n x : Nat) : Nat := (x >>> n) ||| ((x <<< (32 - n)) % M32)

/-- Rotate a 32-bit word left by n bits. -/
def rotl32 (n x : Nat) : Nat := ((x <<< n) % M32) ||| (x >>> (32 - n))

/-! ## SHA-256 (the sha256_digest primitive of utils.rs) -/

def sha256K : List Nat :=
  [1116352408, 1899447441, 3049323471, 3921009573, 961987163, 1508970993,
   2453635748, 2870763221, 3624381080, 310598401, 607225278, 1426881987,
   1925078388, 2162078206, 2614888103, 3248222580, 3835390401, 4022224774,
   264347078, 604807628, 770255983, 1249150122, 1555081692, 1996064986,
   2554220882, 2821834349, 2952996808, 3210313671, 3336571891, 3584528711,
   113926993, 338241895, 666307205, 773529912, 1294757372, 1396182291,
   1695183700, 1986661051, 2177026350, 2456956037, 2730485921, 2820302411,
   3259730800, 3345764771, 3516065817, 3600352804, 4094571909, 275423344,
   430227734, 506948616, 659060556, 883997877, 958139571, 1322822218,
   1537002063, 1747873779, 1955562222, 2024104815, 2227730452, 2361852424,
   2428436474, 2756734187, 3204031479, 3329325298]

structure Sha256St where
  a : Nat
  b : Nat
  c : Nat
  d : Nat
  e : Nat
  f : Nat
  g : Nat
  h : Nat
deriving Repr, DecidableEq

def sha256Init : Sha256St :=
  ⟨1779033703, 3144134277, 1013904242, 2773480762,
   1359893119, 2600822924, 528734635, 1541459225⟩

def sha256s0 (x : Nat) : Nat := rotr32 7 x ^^^ rotr32 18 x ^^^ (x >>> 3)

def sha256s1 (x : Nat) : Nat := rotr32 17 x ^^^ rotr32 19 x ^^^ (x >>> 10)

def sha256S0 (x : Nat) : Nat := rotr32 2 x ^^^ rotr32 13 x ^^^ rotr32 22 x

def sha256S1 (x : Nat) : Nat := rotr32 6 x ^^^ rotr32 11 x ^^^ rotr32 25 x

def sha256Ch (x y z : Nat) : Nat := (x &&& y) ^^^ ((x ^^^ 0xffffffff) &&& z)

def sha256Maj (x y z : Nat) : Nat := ((x &&& y) ^^^ (x &&& z)) ^^^ (y &&& z)

/-- One message-schedule extension step: append word number w.length. -/
def sha256Sched (w : List Nat) : List Nat :=
  let i := w.length
  w ++ [(sha256s1 (w.getD (i - 2) 0) + w.getD (i - 7) 0 +
         sha256s0 (w.getD (i - 15) 0) + w.getD (i - 16) 0) % M32]

def sha256Round (st : Sha256St) (kw : Nat × Nat) : Sha256St :=
  let t1 := (st.h + sha256S1 st.e + sha256Ch st.e st.f st.g + kw.1 + kw.2) % M32
  let t2 := (sha256S0 st.a + sha256Maj st.a st.b st.c) % M32
  ⟨(t1 + t2) % M32, st.a, st.b, st.c, (st.d + t1) % M32, st.e, st.f, st.g⟩

def sha256Block (h : Sha256St) (blk : List Nat) : Sha256St :=
  let w := Nat.repeat sha256Sched 48 (bytesToWordsBE blk)
  let s := (sha256K.zip w).foldl sha256Round h
  ⟨(h.a + s.a) % M32, (h.b + s.b) % M32, (h.c + s.c) % M32, (h.d + s.d) % M32,
   (h.e + s.e) % M32, (h.f + s.f) % M32, (h.g + s.g) % M32, (h.h + s.h) % M32⟩

/-- Merkle-Damgard padding shared by SHA-256 (big-endian bit length). -/
def sha256Pad (msg : List Nat) : List Nat :=
  let L := msg.length
  msg ++ [128] ++ List.replicate ((119 - L % 64) % 64) 0 ++ u64be (8 * L)

def sha256Final (s : Sha256St) : List Nat :=
  wordBytesBE s.a ++ wordBytesBE s.b ++ wordBytesBE s.c ++ wordBytesBE s.d ++
  wordBytesBE s.e ++ wordBytesBE s.f ++ wordBytesBE s.g ++ wordBytesBE s.h

/-- SHA-256 digest of a byte list; models utils.rs sha256_digest. -/
def sha256_digest (data : List Nat) : List Nat :=
  sha256Final ((chunksOf 64 (sha256Pad data).length (sha256Pad data)).foldl sha256Block sha256Init)

example : sha256_digest [] =
    [0xe3, 0xb0, 0xc4, 0x42, 0x98, 0xfc, 0x1c, 0x14, 0x9a, 0xfb, 0xf4, 0xc8, 0x99, 0x6f, 0xb9, 0x24,
     0x27, 0xae, 0x41, 0xe4, 0x64, 0x9b, 0x93, 0x4c, 0xa4, 0x95, 0x99, 0x1b, 0x78, 0x52, 0xb8, 0x55] := by
  decide

example : sha256_digest [97, 98, 99] =
    [0xba, 0x78, 0x16, 0xbf, 0x8f, 0x01, 0xcf, 0xea, 0x41, 0x41, 0x40, 0xde, 0x5d, 0xae, 0x22, 0x23,
     0xb0, 0x03, 0x61, 0xa3, 0x96, 0x17, 0x7a, 0x9c, 0xb4, 0x10, 0xff, 0x61, 0xf2, 0x00, 0x15, 0xad] := by
  decide

/-! ## RIPEMD-160 (the ripemd160_digest primitive of utils.rs) -/

def rmdR1 : List Nat :=
  [0, 1, 2, 3, 4, 5, 6, 7, 8, 9, 10, 11, 12, 13, 14, 15,
   7, 4, 13, 1, 10, 6, 15, 3, 12, 0, 9, 5, 2, 14, 11, 8,
   3, 10, 14, 4, 9, 15, 8, 1, 2, 7, 0, 6, 13, 11, 5, 12,
   1, 9, 11, 10, 0, 8, 12, 4, 13, 3, 7, 15, 14, 5, 6, 2,
   4, 0, 5, 9, 7, 12, 2, 10, 14, 1, 3, 8, 11, 6, 15, 13]

def rmdR2 : List Nat :=
  [5, 14, 7, 0, 9, 2, 11, 4, 13, 6, 15, 8, 1, 10, 3, 12,
   6, 11, 3, 7, 0, 13, 5, 10, 14, 15, 8, 12, 4, 9, 1, 2,
   15, 5, 1, 3, 7, 14, 6, 9, 11, 8, 12, 2, 10, 0, 4, 13,
   8, 6, 4, 1, 3, 11, 15, 0, 5, 12, 2, 13, 9, 7, 10, 14,
   12, 15, 10, 4, 1, 5, 8, 7, 6, 2, 13, 14, 0, 3, 9, 11]

def rmdS1 : List Nat :=
  [11, 14, 15, 12, 5, 8, 7, 9, 11, 13, 14, 15, 6, 7, 9, 8,
   7, 6, 8, 13, 11, 9, 7, 15, 7, 12, 15, 9, 11, 7, 13, 12,
   11, 13, 6, 7, 14, 9, 13, 15, 14, 8, 13, 6, 5, 12, 7, 5,
   11, 12, 14, 15, 14, 15, 9, 8, 9, 14, 5, 6, 8, 6, 5, 12,
   9, 15, 5, 11, 6, 8, 13, 12, 5, 12, 13, 14, 11, 8, 5, 6]

def rmdS2 : List Nat :=
  [8, 9, 9, 11, 13, 15, 15, 5, 7, 7, 8, 11, 14, 14, 12, 6,
   9, 13, 15, 7, 12, 8, 9, 11, 7, 7, 12, 7, 6, 15, 13, 11,
   9, 7, 15, 11, 8, 6, 6, 14, 12, 13, 5, 14, 13, 13, 7, 5,
   15, 5, 8, 11, 14, 14, 6, 14, 6, 9, 12, 9, 12, 5, 15, 8,
   8, 5, 12, 9, 12, 5, 14, 6, 8, 13, 6, 5, 15, 13, 11, 11]

def rmdF (j x y z : Nat) : Nat :=
  if j < 16 then x ^^^ y ^^^ z
  else if j < 32 then (x &&& y) ||| ((x ^^^ 0xffffffff) &&& z)
  else if j < 48 then (x ||| (y ^^^ 0xffffffff)) ^^^ z
  else if j < 64 then (x &&& z) ||| (y &&& (z ^^^ 0xffffffff))
  else x ^^^ (y ||| (z ^^^ 0xffffffff))

def rmdK1 (j : Nat) : Nat :=
  if j < 16 then 0
  else if j < 32 then 0x5a827999
  else if j < 48 then 0x6ed9eba1
  else if j < 64 then 0x8f1bbcdc
  else 0xa953fd4e

def rmdK2 (j : Nat) : Nat :=
  if j < 16 then 0x50a28be6
  else if j < 32 then 0x5c4dd124
  else if j < 48 then 0x6d703ef3
  else if j < 64 then 0x7a6d76e9
  else 0

structure RmdSt where
  a : Nat
  b : Nat
  c : Nat
  d : Nat
  e : Nat
deriving Repr, DecidableEq

def rmdStep (X : List Nat) (leftLine : Bool) (st : RmdSt) (j : Nat) : RmdSt :=
  let fv := if leftLine then rmdF j st.b st.c st.d else rmdF (79 - j) st.b st.c st.d
  let k := if leftLine then rmdK1 j else rmdK2 j
  let ri := if leftLine then rmdR1.getD j 0 else rmdR2.getD j 0
  let si := if leftLine then rmdS1.getD j 0 else rmdS2.getD j 0
  let t := (rotl32 si ((st.a + fv + X.getD ri 0 + k) % M32) + st.e) % M32
  ⟨st.e, t, st.b, rotl32 10 st.c, st.d⟩

def rmdBlock (h : RmdSt) (blk : List Nat) : RmdSt :=
  let X := bytesToWordsLE blk
  let L := (List.range 80).foldl (rmdStep X true) h
  let R := (List.range 80).foldl (rmdStep X false) h
  ⟨(h.b + L.c + R.d) % M32, (h.c + L.d + R.e) % M32, (h.d + L.e + R.a) % M32,
   (h.e + L.a + R.b) % M32, (h.a + L.b + R.c) % M32⟩

def rmdInit : RmdSt := ⟨0x67452301, 0xefcdab89, 0x98badcfe, 0x10325476, 0xc3d2e1f0⟩

/-- RIPEMD padding: like SHA-256 but with a little-endian bit length. -/
def rmdPad (msg : List Nat) : List Nat :=
  let L := msg.length
  msg ++ [128] ++ List.replicate ((119 - L % 64) % 64) 0 ++ u64le (8 * L)

def rmdFinal (s : RmdSt) : List Nat :=
  wordBytesLE s.a ++ wordBytesLE s.b ++ wordBytesLE s.c ++ wordBytesLE s.d ++ wordBytesLE s.e

/-- RIPEMD-160 digest of a byte list; models utils.rs ripemd160_digest. -/
def ripemd160_digest (data : List Nat) : List Nat :=
  rmdFinal ((chunksOf 64 (rmdPad data).length (rmdPad data)).foldl rmdBlock rmdInit)

example : ripemd160_digest [] =
    [0x9c, 0x11, 0x85, 0xa5, 0xc5, 0xe9, 0xfc, 0x54, 0x61, 0x28,
     0x08, 0x97, 0x7e, 0xe8, 0xf5, 0x48, 0xb2, 0x25, 0x8d, 0x31] := by
  decide

example : ripemd160_digest [97, 98, 99] =
    [0x8e, 0xb2, 0x08, 0xf7, 0xe0, 0x5d, 0x98, 0x7a, 0x9b, 0x04,
     0x4a, 0x8e, 0x98, 0xc6, 0xb0, 0x87, 0xf1, 0x5a, 0x0b, 0xfc] := by
  decide

/-! ## Lowercase hex (the HEXLOWER codec used throughout the sources) -/

def hexDigits : List Char := "0123456789abcdef".data

def hexDigitChar (d : Nat) : Char := hexDigits.getD d '?'

def hexDigitVal (c : Char) : Option Nat := hexDigits.findIdx? (fun x => x = c)

/-- Lowercase hex encoding of a byte list; models HEXLOWER.encode. -/
def hex_encode (l : List Nat) : String :=
  String.mk ((l.map (fun b => [hexDigitChar (b / 16), hexDigitChar (b % 16)])).flatten)

def hexDecodeChars : List Char → Option (List Nat)
  | [] => some []
  | [_] => none
  | c1 :: c2 :: rest => do
    let h ← hexDigitVal c1
    let lo ← hexDigitVal c2
    let r ← hexDecodeChars rest
    pure ((h * 16 + lo) :: r)

/-- Lowercase hex decoding; models HEXLOWER.decode (fails on bad input). -/
def hex_decode (s : String) : Option (List Nat) := hexDecodeChars s.data

theorem hexDigit_roundtrip : ∀ d < 16, hexDigitVal (hexDigitChar d) = some d := by decide

theorem hex_roundtrip (l : List Nat) (hl : ∀ x ∈ l, x < 256) :
    hex_decode (hex_encode l) = some l := by
  induction l with
  | nil => rfl
  | cons b t ih =>
    have hb : b < 256 := hl b (List.mem_cons_self b t)
    have ht : ∀ x ∈ t, x < 256 := fun x hx => hl x (List.mem_cons_of_mem b hx)
    have hdiv : b / 16 < 16 := Nat.div_lt_of_lt_mul hb
    have hmod : b % 16 < 16 := Nat.mod_lt b (by decide)
    have e1 := hexDigit_roundtrip (b / 16) hdiv
    have e2 := hexDigit_roundtrip (b % 16) hmod
    have ihe : hexDecodeChars ((t.map (fun b => [hexDigitChar (b / 16), hexDigitChar (b % 16)])).flatten) = some t := ih ht
    simp only [hex_encode, hex_decode, List.map_cons, List.flatten] at *
    simp only [List.cons_append, List.nil_append, hexDecodeChars, e1, e2,
      Option.bind_eq_bind, Option.some_bind]
    simp [ihe]
    omega

/-! ## Base58 (the bs58 codec used by utils.rs base58_encode and base58_decode) -/

def b58Alphabet : List Char := "123456789ABCDEFGHJKLMNPQRSTUVWXYZabcdefghijkmnopqrstuvwxyz".data

def b58Char (d : Nat) : Char := b58Alphabet.getD d '?'

def b58Val (c : Char) : Option Nat := b58Alphabet.findIdx? (fun x => x = c)

/-- Base58 encoding of a byte list; models utils.rs base58_encode. Leading
zero bytes become leading ones and the remainder is the base-58 numeral of
the value of the remaining bytes. -/
def base58_encode (data : List Nat) : String :=
  let z := (data.takeWhile (fun b => b = 0)).length
  let rest := data.dropWhile (fun b => b = 0)
  let n := fromBE 256 rest
  String.mk (List.replicate z '1' ++ (toBaseLE 58 n n).reverse.map b58Char)

def b58Vals : List Char → Option (List Nat)
  | [] => some []
  | c :: rest => do
    let v ← b58Val c
    let r ← b58Vals rest
    pure (v :: r)

/-- Base58 decoding; models utils.rs base58_decode. Returns none where the
Rust code would panic on a character outside the alphabet. -/
def base58_decode (s : String) : Option (List Nat) := do
  let vals ← b58Vals s.data
  let z := (vals.takeWhile (fun v => v = 0)).length
  let n := fromBE 58 vals
  pure (List.replicate z 0 ++ (toBaseLE 256 n n).reverse)

/-! ## Round-trip facts for the base-conversion helpers -/

/-- Predicate: the last digit (if any) is nonzero. -/
def lastNZ (l : List Nat) : Prop := ∀ x, l.getLast? = some x → x ≠ 0

theorem toBaseLE_zero (b : Nat) : ∀ fuel, toBaseLE b fuel 0 = [] := by
  intro fuel
  cases fuel <;> simp [toBaseLE]

theorem toBaseLE_nil_of_le (b : Nat) :
    ∀ fuel n, toBaseLE b fuel n = [] → n ≤ fuel → n = 0 := by
  intro fuel n h hle
  cases fuel with
  | zero => omega
  | succ f =>
    by_contra hn
    simp [toBaseLE, hn] at h

theorem toBaseLE_digits_lt (b : Nat) (hb : 0 < b) :
    ∀ fuel n, ∀ x ∈ toBaseLE b fuel n, x < b := by
  intro fuel
  induction fuel with
  | zero => intro n x hx; simp [toBaseLE] at hx
  | succ f ih =>
    intro n x hx
    by_cases hn : n = 0
    · simp [toBaseLE, hn] at hx
    · simp only [toBaseLE, hn, if_false, List.mem_cons] at hx
      rcases hx with h | h
      · exact h ▸ Nat.mod_lt n hb
      · exact ih (n / b) x h

theorem fromLE_toBaseLE (b : Nat) (hb : 2 ≤ b) :
    ∀ fuel n, n ≤ fuel → fromLE b (toBaseLE b fuel n) = n := by
  intro fuel
  induction fuel with
  | zero => intro n h; interval_cases n; simp [toBaseLE, fromLE]
  | succ f ih =>
    intro n h
    by_cases hn : n = 0
    · simp [toBaseLE, hn, fromLE]
    · have hdiv : n / b ≤ f := by
        have h1 : n / b < n := Nat.div_lt_self (Nat.pos_of_ne_zero hn) hb
        omega
      simp only [toBaseLE, hn, if_false, fromLE, ih (n / b) hdiv]
      exact Nat.mod_add_div n b

theorem toBaseLE_lastNZ (b : Nat) (hb : 2 ≤ b) :
    ∀ fuel n, n ≤ fuel → lastNZ (toBaseLE b fuel n) := by
  intro fuel
  induction fuel with
  | zero => intro n h x hx; simp [toBaseLE] at hx
  | succ f ih =>
    intro n h x hx
    by_cases hn : n = 0
    · simp [toBaseLE, hn] at hx
    · have hdiv : n / b ≤ f := by
        have h1 : n / b < n := Nat.div_lt_self (Nat.pos_of_ne_zero hn) hb
        omega
      simp only [toBaseLE, hn, if_false] at hx
      cases ht : toBaseLE b f (n / b) with
      | nil =>
        have hq : n / b = 0 := toBaseLE_nil_of_le b f (n / b) ht hdiv
        rw [ht] at hx
        simp only [List.getLast?_singleton, Option.some.injEq] at hx
        have : n % b = n := Nat.mod_eq_of_lt (by
          have := Nat.div_eq_zero_iff (by omega : 0 < b) |>.mp hq
          omega)
        omega
      | cons y ys =>
        rw [ht, List.getLast?_cons_cons] at hx
        exact ih (n / b) hdiv x (ht ▸ hx)

theorem fromLE_pos (b : Nat) (hb : 1 ≤ b) :
    ∀ l, lastNZ l → l ≠ [] → 0 < fromLE b l := by
  intro l
  induction l with
  | nil => intro _ h; exact absurd rfl h
  | cons d t ih =>
    intro hnz _
    cases t with
    | nil =>
      have : d ≠ 0 := hnz d (by simp)
      simp [fromLE]; omega
    | cons e r =>
      have htnz : lastNZ (e :: r) := by
        intro x hx
        exact hnz x (by rw [List.getLast?_cons_cons]; exact hx)
      have := ih htnz (by simp)
      simp only [fromLE] at *
      have : 1 * 1 ≤ b * (e + b * fromLE b r) := Nat.mul_le_mul hb (by omega)
      omega

theorem toBaseLE_fromLE (b : Nat) (hb : 2 ≤ b) :
    ∀ l, (∀ x ∈ l, x < b) → lastNZ l →
    ∀ fuel, fromLE b l ≤ fuel → toBaseLE b fuel (fromLE b l) = l := by
  intro l
  induction l with
  | nil => intro _ _ fuel _; simp [fromLE, toBaseLE_zero]
  | cons d t ih =>
    intro hlt hnz fuel hfuel
    have hd : d < b := hlt d (by simp)
    cases t with
    | nil =>
      have hdnz : d ≠ 0 := hnz d (by simp)
      simp only [fromLE, Nat.mul_zero, Nat.add_zero] at *
      cases fuel with
      | zero => omega
      | succ f =>
        simp [toBaseLE, hdnz, Nat.mod_eq_of_lt hd, Nat.div_eq_of_lt hd, toBaseLE_zero]
    | cons e r =>
      have htnz : lastNZ (e :: r) := by
        intro x hx
        exact hnz x (by rw [List.getLast?_cons_cons]; exact hx)
      have htlt : ∀ x ∈ e :: r, x < b := fun x hx => hlt x (List.mem_cons_of_mem d hx)
      have hmpos : 0 < fromLE b (e :: r) := fromLE_pos b (by omega) (e :: r) htnz (by simp)
      have hnval : fromLE b (d :: e :: r) = d + b * fromLE b (e :: r) := rfl
      have hbm : 0 < b * fromLE b (e :: r) := Nat.mul_pos (by omega) hmpos
      cases fuel with
      | zero => omega
      | succ f =>
        have hmod : (d + b * fromLE b (e :: r)) % b = d := by
          rw [Nat.add_mul_mod_self_left, Nat.mod_eq_of_lt hd]
        have hdivq : (d + b * fromLE b (e :: r)) / b = fromLE b (e :: r) := by
          rw [Nat.add_mul_div_left _ _ (by omega : 0 < b), Nat.div_eq_of_lt hd]
          omega
        have hffuel : fromLE b (e :: r) ≤ f := by
          have h2m : fromLE b (e :: r) + 1 ≤ d + b * fromLE b (e :: r) := by
            have : 2 * fromLE b (e :: r) ≤ b * fromLE b (e :: r) :=
              Nat.mul_le_mul_right _ hb
            omega
          rw [hnval] at hfuel
          omega
        have hne : ¬(d + b * fromLE b (e :: r) = 0) := by omega
        rw [hnval]
        simp only [toBaseLE, hne, if_false, hmod, hdivq, ih htlt htnz f hffuel]

theorem fromLE_replicate_zero (b z : Nat) : fromLE b (List.replicate z 0) = 0 := by
  induction z with
  | zero => rfl
  | succ k ih => simp [List.replicate_succ, fromLE, ih]

theorem fromLE_append_zeros (b : Nat) (z : Nat) :
    ∀ l, fromLE b (l ++ List.replicate z 0) = fromLE b l := by
  intro l
  induction l with
  | nil => simpa [fromLE] using fromLE_replicate_zero b z
  | cons d t ih => simp [fromLE, ih]

theorem b58Val_b58Char : ∀ d < 58, b58Val (b58Char d) = some d := by decide

theorem b58Vals_replicate_one (z : Nat) :
    b58Vals (List.replicate z '1') = some (List.replicate z 0) := by
  induction z with
  | zero => rfl
  | succ k ih =>
    have h1 : b58Val '1' = some 0 := by decide
    simp [List.replicate_succ, b58Vals, h1, ih]

theorem b58Vals_map_char (l : List Nat) (h : ∀ d ∈ l, d < 58) :
    b58Vals (l.map b58Char) = some l := by
  induction l with
  | nil => rfl
  | cons d t ih =>
    have hd := b58Val_b58Char d (h d (by simp))
    simp [b58Vals, hd, ih (fun x hx => h x (List.mem_cons_of_mem d hx))]

theorem b58Vals_append (l1 l2 : List Char) (r1 r2 : List Nat)
    (h1 : b58Vals l1 = some r1) (h2 : b58Vals l2 = some r2) :
    b58Vals (l1 ++ l2) = some (r1 ++ r2) := by
  induction l1 generalizing r1 with
  | nil =>
    simp only [b58Vals] at h1
    cases h1
    simpa using h2
  | cons c t ih =>
    simp only [b58Vals, Option.bind_eq_bind] at h1 ⊢
    cases hc : b58Val c with
    | none => rw [hc] at h1; simp at h1
    | some v =>
      rw [hc] at h1
      simp only [Option.some_bind] at h1 ⊢
      cases ht : b58Vals t with
      | none => rw [ht] at h1; simp at h1
      | some rt =>
        rw [ht] at h1
        simp only [Option.some_bind, pure, Option.some.injEq] at h1
        simp only [List.append_eq]
        rw [ih rt (by rw [ht])]
        simp [← h1]

theorem mem_of_dropWhile {x : Nat} {p : Nat → Bool} :
    ∀ l : List Nat, x ∈ l.dropWhile p → x ∈ l := by
  intro l
  induction l with
  | nil => simp [List.dropWhile]
  | cons d t ih =>
    intro hx
    by_cases hd : p d
    · rw [List.dropWhile_cons_of_pos hd] at hx
      exact List.mem_cons_of_mem d (ih hx)
    · rw [List.dropWhile_cons_of_neg hd] at hx
      exact hx

theorem dropWhile_zero_head : ∀ (l : List Nat) x xs,
    l.dropWhile (fun b => b = 0) = x :: xs → x ≠ 0 := by
  intro l
  induction l with
  | nil => intro x xs h; simp [List.dropWhile] at h
  | cons d t ih =>
    intro x xs h
    by_cases hd : d = 0
    · rw [List.dropWhile_cons_of_pos (by simp [hd])] at h
      exact ih x xs h
    · rw [List.dropWhile_cons_of_neg (by simp [hd])] at h
      cases h
      exact hd

theorem takeWhile_zero_replicate : ∀ l : List Nat,
    l.takeWhile (fun b => b = 0) =
      List.replicate (l.takeWhile (fun b => b = 0)).length 0 := by
  intro l
  induction l with
  | nil => rfl
  | cons d t ih =>
    by_cases hd : d = 0
    · rw [List.takeWhile_cons_of_pos (by simp [hd])]
      simp only [List.length_cons, List.replicate_succ]
      rw [hd, ← ih]
    · rw [List.takeWhile_cons_of_neg (by simp [hd])]
      rfl

theorem takeWhile_rep_append (z : Nat) (l : List Nat)
    (h : ∀ x xs, l = x :: xs → x ≠ 0) :
    (List.replicate z 0 ++ l).takeWhile (fun v => v = 0) = List.replicate z 0 := by
  induction z with
  | zero =>
    simp only [List.replicate, List.nil_append]
    cases l with
    | nil => rfl
    | cons x xs =>
      rw [List.takeWhile_cons_of_neg (by simp [h x xs rfl])]
  | succ k ih =>
    simp only [List.replicate_succ, List.cons_append]
    rw [List.takeWhile_cons_of_pos (by simp)]
    rw [ih]

/-- Round trip of the base58 codec on byte lists, as produced and consumed
by the wallet address functions. -/
theorem base58_roundtrip (l : List Nat) (hl : ∀ x ∈ l, x < 256) :
    base58_decode (base58_encode l) = some l := by
  have hsplit := List.takeWhile_append_dropWhile (p := fun b => decide (b = 0)) (l := l)
  have hrep := takeWhile_zero_replicate l
  set z := (l.takeWhile (fun b => b = 0)).length with hz
  set rest := l.dropWhile (fun b => b = 0) with hrestdef
  set n := fromBE 256 rest with hn
  have hdig : ∀ d ∈ (toBaseLE 58 n n).reverse, d < 58 := by
    intro d hd
    exact toBaseLE_digits_lt 58 (by decide) n n d (List.mem_reverse.mp hd)
  have hvals : b58Vals (List.replicate z '1' ++ (toBaseLE 58 n n).reverse.map b58Char) =
      some (List.replicate z 0 ++ (toBaseLE 58 n n).reverse) :=
    b58Vals_append _ _ _ _ (b58Vals_replicate_one z) (b58Vals_map_char _ hdig)
  have hheadrest : ∀ x xs, rest = x :: xs → x ≠ 0 := fun x xs hx =>
    dropWhile_zero_head l x xs (hrestdef ▸ hx)
  have hlastrev : lastNZ rest.reverse := by
    intro x hx
    rw [List.getLast?_reverse] at hx
    cases hr : rest with
    | nil => rw [hr] at hx; simp at hx
    | cons y ys =>
      rw [hr] at hx
      simp only [List.head?_cons, Option.some.injEq] at hx
      exact hx ▸ hheadrest y ys hr
  have hrestlt : ∀ x ∈ rest.reverse, x < 256 := by
    intro x hx
    exact hl x (mem_of_dropWhile l (List.mem_reverse.mp hx))
  have hnval : n = fromLE 256 rest.reverse := rfl
  have hbytes : toBaseLE 256 n n = rest.reverse := by
    rw [hnval]
    exact toBaseLE_fromLE 256 (by decide) rest.reverse hrestlt hlastrev (fromLE 256 rest.reverse) le_rfl
  -- head of the digit part is nonzero, needed for the takeWhile computation
  have hheaddig : ∀ x xs, (toBaseLE 58 n n).reverse = x :: xs → x ≠ 0 := by
    intro x xs hx
    have : (toBaseLE 58 n n).reverse.head? = some x := by rw [hx]; rfl
    rw [List.head?_reverse] at this
    exact toBaseLE_lastNZ 58 (by decide) n n le_rfl x this
  have htake : (List.replicate z 0 ++ (toBaseLE 58 n n).reverse).takeWhile (fun v => v = 0) =
      List.replicate z 0 := takeWhile_rep_append z _ hheaddig
  have hfrom : fromBE 58 (List.replicate z 0 ++ (toBaseLE 58 n n).reverse) = n := by
    unfold fromBE
    rw [List.reverse_append, List.reverse_reverse, List.reverse_replicate]
    rw [fromLE_append_zeros]
    exact fromLE_toBaseLE 58 (by decide) n n le_rfl
  show base58_decode (base58_encode l) = some l
  unfold base58_encode base58_decode
  simp only [← hz, ← hrestdef, ← hn]
  rw [hvals]
  simp only [Option.bind_eq_bind, Option.some_bind, htake, hfrom, List.length_replicate]
  rw [hbytes, List.reverse_reverse]
  rw [hrep] at hsplit
  simp [hsplit]

/-! ## Byte-range and length facts about the digests -/

theorem wordBytesBE_lt (w : Nat) : ∀ x ∈ wordBytesBE w, x < 256 := by
  intro x hx
  simp [wordBytesBE] at hx
  rcases hx with rfl | rfl | rfl | rfl <;> exact Nat.mod_lt _ (by decide)

theorem wordBytesLE_lt (w : Nat) : ∀ x ∈ wordBytesLE w, x < 256 := by
  intro x hx
  simp [wordBytesLE] at hx
  rcases hx with rfl | rfl | rfl | rfl <;> exact Nat.mod_lt _ (by decide)

theorem bytes_lt_append {a b : List Nat} (ha : ∀ x ∈ a, x < 256) (hb : ∀ x ∈ b, x < 256) :
    ∀ x ∈ a ++ b, x < 256 := by
  intro x hx
  rcases List.mem_append.mp hx with h | h
  exacts [ha x h, hb x h]

theorem sha256_digest_lt (d : List Nat) : ∀ x ∈ sha256_digest d, x < 256 := by
  unfold sha256_digest sha256Final
  exact bytes_lt_append (bytes_lt_append (bytes_lt_append (bytes_lt_append
    (bytes_lt_append (bytes_lt_append (bytes_lt_append (wordBytesBE_lt _)
    (wordBytesBE_lt _)) (wordBytesBE_lt _)) (wordBytesBE_lt _)) (wordBytesBE_lt _))
    (wordBytesBE_lt _)) (wordBytesBE_lt _)) (wordBytesBE_lt _)

theorem ripemd160_digest_lt (d : List Nat) : ∀ x ∈ ripemd160_digest d, x < 256 := by
  unfold ripemd160_digest rmdFinal
  exact bytes_lt_append (bytes_lt_append (bytes_lt_append (bytes_lt_append
    (wordBytesLE_lt _) (wordBytesLE_lt _)) (wordBytesLE_lt _)) (wordBytesLE_lt _))
    (wordBytesLE_lt _)

theorem sha256_digest_length (d : List Nat) : (sha256_digest d).length = 32 := by
  simp [sha256_digest, sha256Final, wordBytesBE]

theorem ripemd160_digest_length (d : List Nat) : (ripemd160_digest d).length = 20 := by
  simp [ripemd160_digest, rmdFinal, wordBytesLE]

/-! ## Wallet and address functions (wallet.rs) -/

def VERSION : Nat := 0

def ADDRESS_CHECK_SUM_LEN : Nat := 4

/-- RIPEMD-160 of SHA-256 of the public key; models wallet.rs hash_pub_key. -/
def hash_pub_key (pub_key : List Nat) : List Nat :=
  ripemd160_digest (sha256_digest pub_key)

/-- First four bytes of the double SHA-256 of the payload; models
wallet.rs checksum. -/
def checksum (payload : List Nat) : List Nat :=
  (sha256_digest (sha256_digest payload)).take ADDRESS_CHECK_SUM_LEN

/-- Version byte, then hash of the public key, then checksum: the payload
Wallet::get_address builds before encoding. -/
def address_payload (public_key : List Nat) : List Nat :=
  VERSION :: hash_pub_key public_key ++ checksum (VERSION :: hash_pub_key public_key)

/-- Base58 address of a wallet public key; models Wallet::get_address. -/
def get_address (public_key : List Nat) : String :=
  base58_encode (address_payload public_key)

/-- Models wallet.rs validate_address; none where the Rust code panics
(invalid base58, or a payload too short for the slicing). -/
def validate_address (address : String) : Option Bool := do
  let payload ← base58_decode address
  if payload.length < ADDRESS_CHECK_SUM_LEN + 1 then none
  else
    let actual_checksum := payload.drop (payload.length - ADDRESS_CHECK_SUM_LEN)
    let version := payload.headD 0
    let pub_key_hash := (payload.drop 1).take (payload.length - (ADDRESS_CHECK_SUM_LEN + 1))
    pure (decide (actual_checksum = checksum (version :: pub_key_hash)))

theorem hash_pub_key_length (pk : List Nat) : (hash_pub_key pk).length = 20 :=
  ripemd160_digest_length _

theorem checksum_length (p : List Nat) : (checksum p).length = 4 := by
  simp [checksum, ADDRESS_CHECK_SUM_LEN, List.length_take, sha256_digest_length]

theorem address_payload_lt (pk : List Nat) :
    ∀ x ∈ address_payload pk, x < 256 := by
  intro x hx
  unfold address_payload at hx
  rcases List.mem_cons.mp hx with rfl | hx2
  · decide
  · rcases List.mem_append.mp hx2 with h | h
    · exact ripemd160_digest_lt _ x h
    · exact sha256_digest_lt _ x (List.mem_of_mem_take h)

/-- Claim C9: for every wallet public key, validate_address accepts the
address built by get_address, and base58-decoding that address yields
exactly the version byte 0x00, then hash_pub_key of the public key
(RIPEMD-160 of SHA-256), then the 4-byte checksum, which is the first 4
bytes of the double SHA-256 of version-plus-hash. -/
theorem claim_C9 (pk : List Nat) (hpk : ∀ x ∈ pk, x < 256) :
    validate_address (get_address pk) = some true ∧
    base58_decode (get_address pk) =
      some (VERSION :: hash_pub_key pk ++ checksum (VERSION :: hash_pub_key pk)) := by
  have hlen20 : (hash_pub_key pk).length = 20 := hash_pub_key_length pk
  have hclen : (checksum (VERSION :: hash_pub_key pk)).length = 4 := checksum_length _
  have hdec : base58_decode (get_address pk) = some (address_payload pk) :=
    base58_roundtrip _ (address_payload_lt pk)
  refine ⟨?_, hdec⟩
  unfold validate_address
  rw [hdec]
  have hplen : (address_payload pk).length = 25 := by
    simp [address_payload, hlen20, hclen]
  have hsplit : address_payload pk =
      (VERSION :: hash_pub_key pk) ++ checksum (VERSION :: hash_pub_key pk) := by
    simp [address_payload]
  have hvlen : (VERSION :: hash_pub_key pk).length = 21 := by simp [hlen20]
  have hdrop : (address_payload pk).drop 21 = checksum (VERSION :: hash_pub_key pk) := by
    rw [hsplit, ← hvlen, List.drop_left]
  have htail : (address_payload pk).drop 1 =
      hash_pub_key pk ++ checksum (VERSION :: hash_pub_key pk) := rfl
  have htake : ((address_payload pk).drop 1).take 20 = hash_pub_key pk := by
    rw [htail, ← hlen20, List.take_left]
  have hhead : (address_payload pk).headD 0 = VERSION := rfl
  simp only [Option.bind_eq_bind, Option.some_bind, hplen]
  norm_num [ADDRESS_CHECK_SUM_LEN]
  have hhead2 : (address_payload pk).head?.getD 0 = VERSION := rfl
  have htail2 : (address_payload pk).tail =
      hash_pub_key pk ++ checksum (VERSION :: hash_pub_key pk) := rfl
  have htake2 : ((address_payload pk).tail).take 20 = hash_pub_key pk := by
    rw [htail2, ← hlen20, List.take_left]
  rw [hhead2, htake2]
  exact hdrop

/-- Witness for C9 at the concrete public-key bytes 1, 2, 3. -/
theorem claim_C9_witness :
    validate_address (get_address [1, 2, 3]) = some true ∧
    base58_decode (get_address [1, 2, 3]) =
      some (VERSION :: hash_pub_key [1, 2, 3] ++ checksum (VERSION :: hash_pub_key [1, 2, 3])) :=
  claim_C9 [1, 2, 3] (by decide)

/-! ## Transactions (transactions.rs) -/

structure TXInput where
  txid : List Nat
  vout : Nat
  signature : List Nat
  pub_key : List Nat
deriving Repr, DecidableEq, Inhabited

structure TXOutput where
  value : Int
  pub_key_hash : List Nat
deriving Repr, DecidableEq, Inhabited

structure Transaction where
  id : List Nat
  vin : List TXInput
  vout : List TXOutput
deriving Repr, DecidableEq, Inhabited

def SUBSIDY : Int := 10

/-- Models TXOutput::is_locked_with_key. -/
def TXOutput.is_locked_with_key (o : TXOutput) (pkh : List Nat) : Bool :=
  decide (o.pub_key_hash = pkh)

/-- Models TXOutput::new followed by lock: decode the address and strip the
version byte and checksum; none where the Rust slicing would panic. -/
def txoutput_new (value : Int) (address : String) : Option TXOutput :=
  match base58_decode address with
  | none => none
  | some payload =>
    if payload.length < ADDRESS_CHECK_SUM_LEN + 1 then none
    else some { value := value,
                pub_key_hash := (payload.drop 1).take (payload.length - (ADDRESS_CHECK_SUM_LEN + 1)) }

/-! Serialization follows bincode's default configuration: u64 little-endian
lengths for sequences, two's-complement little-endian fixed-width integers. -/

def ser_bytes (l : List Nat) : List Nat := u64le l.length ++ l

def i32le (v : Int) : List Nat :=
  wordBytesLE ((v % 4294967296).toNat)

def ser_txinput (i : TXInput) : List Nat :=
  ser_bytes i.txid ++ u64le i.vout ++ ser_bytes i.signature ++ ser_bytes i.pub_key

def ser_txoutput (o : TXOutput) : List Nat :=
  i32le o.value ++ ser_bytes o.pub_key_hash

/-- Models Transaction::serialize (bincode encoding of the struct). -/
def tx_serialize (t : Transaction) : List Nat :=
  ser_bytes t.id ++
  u64le t.vin.length ++ (t.vin.map ser_txinput).flatten ++
  u64le t.vout.length ++ (t.vout.map ser_txoutput).flatten

/-- Models Transaction::hash: SHA-256 of the serialization of a copy whose
id field is cleared. -/
def tx_hash (t : Transaction) : List Nat :=
  sha256_digest (tx_serialize { t with id := [] })

/-- Models Transaction::is_coinbase. -/
def Transaction.is_coinbase (t : Transaction) : Bool :=
  match t.vin with
  | [vin] => vin.pub_key.isEmpty
  | _ => false

/-- Models Transaction::new_coinbase_tx; the 16 random UUID bytes that the
source puts in the input signature are an explicit argument. -/
def new_coinbase_tx (to_addr : String) (uuid : List Nat) : Option Transaction :=
  (txoutput_new SUBSIDY to_addr).map (fun tx_output =>
    let tx0 : Transaction :=
      { id := [], vin := [{ txid := [], vout := 0, signature := uuid, pub_key := [] }],
        vout := [tx_output] }
    { tx0 with id := tx_hash tx0 })

/-- Models Transaction::trimmed_copy. -/
def trimmed_copy (t : Transaction) : Transaction :=
  { id := t.id,
    vin := t.vin.map (fun i => { txid := i.txid, vout := i.vout, signature := [], pub_key := [] }),
    vout := t.vout }

/-- Set the pub_key field of the input at the given position. -/
def set_input_pub_key : List TXInput → Nat → List Nat → List TXInput
  | [], _, _ => []
  | x :: r, 0, pk => { x with pub_key := pk } :: r
  | x :: r, i + 1, pk => x :: set_input_pub_key r i pk

/-- Per-input message of the signing protocol: the trimmed copy with the
pub_key of input i replaced by the referenced output's pub_key_hash, id
cleared, hashed. -/
def input_message (base : Transaction) (i : Nat) (pkh : List Nat) : List Nat :=
  tx_hash { base with vin := set_input_pub_key base.vin i pkh }

/-- Models the loop of Transaction::sign: walk the inputs in index order,
look up the referenced prior transaction, build the per-input message, and
store the oracle's signature. none models the panics (missing prior tx, or
an out-of-range vout index). -/
def signed_inputs (findTx : List Nat → Option Transaction)
    (oracle : List Nat → List Nat → List Nat) (pkcs8 : List Nat)
    (base : Transaction) : Nat → List TXInput → Option (List TXInput)
  | _, [] => some []
  | i, vin :: rest => do
    let prev ← findTx vin.txid
    let out ← prev.vout.get? vin.vout
    let rest2 ← signed_inputs findTx oracle pkcs8 base (i + 1) rest
    pure ({ vin with signature := oracle pkcs8 (input_message base i out.pub_key_hash) } :: rest2)

/-- Models Transaction::sign. -/
def sign_tx (findTx : List Nat → Option Transaction)
    (oracle : List Nat → List Nat → List Nat) (pkcs8 : List Nat)
    (t : Transaction) : Option Transaction := do
  let vin2 ← signed_inputs findTx oracle pkcs8 (trimmed_copy t) 0 t.vin
  pure { t with vin := vin2 }

/-- Models the loop of Transaction::verify: same per-input message, checked
with the verification oracle against the stored signature and pub_key;
returns false at the first failing input. -/
def verify_inputs (findTx : List Nat → Option Transaction)
    (vOracle : List Nat → List Nat → List Nat → Bool)
    (base : Transaction) : Nat → List TXInput → Option Bool
  | _, [] => some true
  | i, vin :: rest => do
    let prev ← findTx vin.txid
    let out ← prev.vout.get? vin.vout
    if vOracle vin.pub_key vin.signature (input_message base i out.pub_key_hash) then
      verify_inputs findTx vOracle base (i + 1) rest
    else
      pure false

/-- Models Transaction::verify. -/
def tx_verify (findTx : List Nat → Option Transaction)
    (vOracle : List Nat → List Nat → List Nat → Bool) (t : Transaction) : Option Bool :=
  if t.is_coinbase then some true
  else verify_inputs findTx vOracle (trimmed_copy t) 0 t.vin

/-! ## Blocks and proof of work (block.rs, proof_of_work.rs) -/

structure Block where
  timestamp : Int
  pre_block_hash : String
  hash : String
  transactions : List Transaction
  nonce : Int
  height : Nat
deriving Repr, DecidableEq, Inhabited

/-- Models Block::hash_transactions: SHA-256 of the concatenated tx ids. -/
def hash_transactions (b : Block) : List Nat :=
  sha256_digest (b.transactions.map Transaction.id).flatten

/-- ASCII bytes of a string (all strings hashed by this program are ASCII). -/
def strBytes (s : String) : List Nat := s.data.map Char.toNat

def TARGET_BITS : Int := 9223372036854775807

def MAX_NONCE : Int := 0

/-- Models ProofOfWork::prepare_data. -/
def prepare_data (b : Block) (nonce : Int) : List Nat :=
  strBytes b.pre_block_hash ++ hash_transactions b ++
  i64be b.timestamp ++ i64be TARGET_BITS ++ i64be nonce

/-- Loop body of ProofOfWork::run; fuel counts the remaining iterations of
the while guard nonce < MAX_NONCE. -/
def pow_run_loop (b : Block) (target : Int) : Nat → Int → List Nat → Int × List Nat
  | 0, nonce, hash => (nonce, hash)
  | fuel + 1, nonce, hash =>
    let h := sha256_digest (prepare_data b nonce)
    if (fromBE 256 h : Int) < target then (nonce, h)
    else pow_run_loop b target fuel (nonce + 1) h

/-- Models ProofOfWork::run. The target (1 shifted by 256 - TARGET_BITS,
a negative shift amount in the source since TARGET_BITS is i64::MAX) is an
explicit argument; with MAX_NONCE = 0 the loop body never runs, so the
result does not depend on it. -/
def pow_run (b : Block) (target : Int) : Int × String :=
  let r := pow_run_loop b target (MAX_NONCE - 0).toNat 0 []
  (r.1, hex_encode r.2)

/-- Models Block::new: build the block, then fill nonce and hash from
ProofOfWork::run. -/
def block_new (target : Int) (timestamp : Int) (pre_block_hash : String)
    (transactions : List Transaction) (height : Nat) : Block :=
  let base : Block := { timestamp := timestamp, pre_block_hash := pre_block_hash,
                        hash := "", transactions := transactions, nonce := 0, height := height }
  let r := pow_run base target
  { base with nonce := r.1, hash := r.2 }

/-! ## Blockchain store (blockchain.rs) -/

/-- Association-list lookup with decidable key equality. -/
def lookupKey {K V : Type} [DecidableEq K] (k : K) : List (K × V) → Option V
  | [] => none
  | (k2, v) :: rest => if k = k2 then some v else lookupKey k rest

/-- Insert-or-overwrite in an association list (sled tree insert). -/
def upsert {K V : Type} [DecidableEq K] (k : K) (v : V) : List (K × V) → List (K × V)
  | [] => [(k, v)]
  | (k2, v2) :: rest => if k = k2 then (k, v) :: rest else (k2, v2) :: upsert k v rest

/-- Remove a key from an association list (sled tree remove). -/
def removeKey {K V : Type} [DecidableEq K] (k : K) : List (K × V) → List (K × V)
  | [] => []
  | (k2, v2) :: rest => if k = k2 then rest else (k2, v2) :: removeKey k rest

/-- The persistent block store: block-hash-to-block entries of the blocks
tree, plus the tip (the tip_block_hash key and the in-memory cache, which
every operation updates together). -/
structure BlockTree where
  entries : List (String × Block)
  tip : String
deriving Repr, DecidableEq, Inhabited

/-- Models Blockchain::iterator traversal: start at the tip hash and follow
pre_block_hash links until a lookup fails; fuel bounds the walk (the number
of stored blocks suffices on any acyclic store). -/
def iter_chain (entries : List (String × Block)) : Nat → String → List Block
  | 0, _ => []
  | fuel + 1, h =>
    match lookupKey h entries with
    | none => []
    | some b => b :: iter_chain entries fuel b.pre_block_hash

/-- The chain in iterator order, newest first. -/
def chain_of (bt : BlockTree) : List Block :=
  iter_chain bt.entries (bt.entries.length + 1) bt.tip

/-- Models Blockchain::find_transaction: linear scan, first match. -/
def find_transaction (chain : List Block) (txid : List Nat) : Option Transaction :=
  chain.findSome? (fun b => b.transactions.find? (fun t => decide (t.id = txid)))

/-- Models Blockchain::get_best_height: height of the block the tip hash
points to; none where the Rust expect panics. -/
def get_best_height (bt : BlockTree) : Option Nat :=
  (lookupKey bt.tip bt.entries).map Block.height

/-- Models Blockchain::add_block. If the hash is present: no-op. Otherwise
insert the block, load the block the tip points to (after the insert, as in
the sled transaction), and move the tip only to a strictly greater height.
none models the expect panic on a dangling tip. -/
def add_block (bt : BlockTree) (b : Block) : Option BlockTree :=
  if (lookupKey b.hash bt.entries).isSome then some bt
  else
    let entries2 := upsert b.hash b bt.entries
    match lookupKey bt.tip entries2 with
    | none => none
    | some tip_block =>
      some { entries := entries2,
             tip := if tip_block.height < b.height then b.hash else bt.tip }

/-- Models Blockchain::mine_block: verify every transaction (panic if any
fails), read the best height, build a block of height best + 1 via Block::new,
store it and move the tip to it unconditionally. -/
def mine_block (vOracle : List Nat → List Nat → List Nat → Bool) (target : Int)
    (timestamp : Int) (bt : BlockTree) (txs : List Transaction) : Option (BlockTree × Block) := do
  let chain := chain_of bt
  if txs.all (fun t => tx_verify (find_transaction chain) vOracle t == some true) then
    let best ← get_best_height bt
    let b := block_new target timestamp bt.tip txs (best + 1)
    pure ({ entries := upsert b.hash b bt.entries, tip := b.hash }, b)
  else
    none

/-! ## UTXO discovery (Blockchain::find_utxo) -/

/-- Append a value to the list stored under a key, creating the entry at the
end when absent (HashMap entry insertion, in insertion order). -/
def pushVal {V : Type} (m : List (String × List V)) (k : String) (v : V) : List (String × List V) :=
  match m with
  | [] => [(k, [v])]
  | (k2, vs) :: rest => if k2 = k then (k2, vs ++ [v]) :: rest else (k2, vs) :: pushVal rest k v

/-- Output-collection loop of find_utxo. Walks the outputs with their
indices; when an index is found in the spent list the source's
continue-to-the-outer-labelled-loop abandons the whole transaction, so the
collected prefix is returned with an aborted flag. -/
def collect_unspent (spentIdxs : List Nat) : Nat → List TXOutput → List TXOutput × Bool
  | _, [] => ([], false)
  | i, o :: rest =>
    if spentIdxs.contains i then ([], true)
    else
      let r := collect_unspent spentIdxs (i + 1) rest
      (o :: r.1, r.2)

def push_outputs (utxo : List (String × List TXOutput)) (k : String) (outs : List TXOutput) :
    List (String × List TXOutput) :=
  outs.foldl (fun m o => pushVal m k o) utxo

def record_spent (spent : List (String × List Nat)) (vin : List TXInput) :
    List (String × List Nat) :=
  vin.foldl (fun m i => pushVal m (hex_encode i.txid) i.vout) spent

/-- Per-transaction step of find_utxo: add the outputs not yet marked spent
(stopping at the first spent index, which aborts the transaction), then,
unless aborted or coinbase, record the inputs as spent. -/
def find_utxo_tx (acc : List (String × List TXOutput) × List (String × List Nat))
    (tx : Transaction) : List (String × List TXOutput) × List (String × List Nat) :=
  let txid_hex := hex_encode tx.id
  let spentIdxs := (lookupKey txid_hex acc.2).getD []
  let r := collect_unspent spentIdxs 0 tx.vout
  let utxo2 := push_outputs acc.1 txid_hex r.1
  if r.2 then (utxo2, acc.2)
  else if tx.is_coinbase then (utxo2, acc.2)
  else (utxo2, record_spent acc.2 tx.vin)

/-- Models Blockchain::find_utxo over the chain in iterator order (newest
block first), returning the map from hex txid to unspent outputs. -/
def find_utxo (chain : List Block) : List (String × List TXOutput) :=
  (chain.foldl (fun acc b => b.transactions.foldl find_utxo_tx acc) ([], [])).1

/-! ## UTXO set (utxo_set.rs) -/

/-- The chainstate tree: txid bytes mapped to the stored output list. -/
def Chainstate : Type := List (List Nat × List TXOutput)

instance : DecidableEq Chainstate := by
  unfold Chainstate
  infer_instance

/-- Models UTXOSet::reindex: clear the tree and insert every entry of
Blockchain::find_utxo, hex-decoding the keys (none where the decode
unwrap would panic). -/
def reindex (chain : List Block) : Option Chainstate :=
  (find_utxo chain).mapM (fun kv => (hex_decode kv.1).map (fun k => (k, kv.2)))

/-- Models UTXOSet::update for one block: for each non-coinbase transaction
remove every spent output from its entry, positionally on the stored list
(deleting the key when nothing remains), then store all outputs of the new
transaction under its id. none models the unwrap panic when an input's
txid has no chainstate entry. -/
def utxo_update (cs : Chainstate) (b : Block) : Option Chainstate :=
  b.transactions.foldlM (fun cs tx => do
    let cs1 ←
      if tx.is_coinbase then pure cs
      else
        tx.vin.foldlM (fun cs2 vin => do
          let outs ← lookupKey vin.txid cs2
          let updated := ((outs.enum.filter (fun p => p.1 ≠ vin.vout)).map Prod.snd)
          if updated.isEmpty then pure (removeKey vin.txid cs2)
          else pure (upsert vin.txid updated cs2)) cs
    pure (upsert tx.id tx.vout cs1)) cs

/-- Models UTXOSet::find_spendable_outputs: scan the chainstate entries,
and greedily take outputs locked to the key while the accumulated value is
still below the amount. -/
def find_spendable_outputs (cs : Chainstate) (pkh : List Nat) (amount : Int) :
    Int × List (String × List Nat) :=
  cs.foldl (fun acc entry =>
    let txid_hex := hex_encode entry.1
    entry.2.enum.foldl (fun acc2 p =>
      if p.2.is_locked_with_key pkh && decide (acc2.1 < amount) then
        (acc2.1 + p.2.value, pushVal acc2.2 txid_hex p.1)
      else acc2) acc) (0, [])

/-! ## Spend-transaction construction (Transaction::new_utxo_transaction) -/

structure Wallet where
  pkcs8 : List Nat
  public_key : List Nat
deriving Repr, DecidableEq, Inhabited

inductive TxErr
  | noWallet
  | insufficientFunds
  | badAddress
  | hexPanic
  | signPanic
deriving Repr, DecidableEq

/-- One input per selected (txid, vout) pair, in selection order: hex-decode
each key of the find_spendable_outputs map and pair it with each chosen
output index. -/
def selected_pairs (valid : List (String × List Nat)) : Option (List (List Nat × Nat)) :=
  (valid.mapM (fun kv => (hex_decode kv.1).map (fun t => kv.2.map (fun v => (t, v))))).map
    List.flatten

/-- Input-building loop of new_utxo_transaction: every selected pair becomes
an input that carries the sender's raw public key and an empty signature. -/
def build_inputs (pk : List Nat) (valid : List (String × List Nat)) : Option (List TXInput) :=
  (selected_pairs valid).map
    (List.map (fun p => { txid := p.1, vout := p.2, signature := [], pub_key := pk }))

/-- Models Transaction::new_utxo_transaction: resolve the wallet, query
find_spendable_outputs, abort with insufficient funds when the accumulated
value is below the amount, build the inputs and the outputs (payment plus
change when the accumulation overshoots), set the id, and sign. -/
def new_utxo_transaction (wallets : List (String × Wallet)) (chain : List Block)
    (cs : Chainstate) (oracle : List Nat → List Nat → List Nat)
    (from_addr to_addr : String) (amount : Int) : Except TxErr Transaction :=
  match lookupKey from_addr wallets with
  | none => .error .noWallet
  | some w =>
    let pkh := hash_pub_key w.public_key
    let fso := find_spendable_outputs cs pkh amount
    if fso.1 < amount then .error .insufficientFunds
    else
      match build_inputs w.public_key fso.2 with
      | none => .error .hexPanic
      | some inputs =>
        match txoutput_new amount to_addr with
        | none => .error .badAddress
        | some out1 =>
          let outsOpt :=
            if amount < fso.1 then
              (txoutput_new (fso.1 - amount) from_addr).map (fun o2 => [out1, o2])
            else some [out1]
          match outsOpt with
          | none => .error .badAddress
          | some outs =>
            let tx0 : Transaction := { id := [], vin := inputs, vout := outs }
            let tx1 := { tx0 with id := tx_hash tx0 }
            match sign_tx (find_transaction chain) oracle w.pkcs8 tx1 with
            | none => .error .signPanic
            | some tx2 => .ok tx2

/-! ## Network layer (server.rs) -/

def CENTRAL_NODE : String := "127.0.0.1:2001"

def TRANSACTION_THRESHOLD : Nat := 2

inductive OpType
  | tx
  | block
deriving Repr, DecidableEq

/-- The wire Package enum of server.rs. -/
inductive Package
  | block (addr_from : String) (bytes : List Nat)
  | getBlocks (addr_from : String)
  | getData (addr_from : String) (op : OpType) (id : List Nat)
  | inv (addr_from : String) (op : OpType) (items : List (List Nat))
  | tx (addr_from : String) (bytes : List Nat)
  | version (addr_from : String) (ver : Nat) (best_height : Nat)
deriving Repr, DecidableEq

/-- Outbound protocol actions a handler can perform. -/
inductive NetAction
  | sendVersion (addr : String) (best_height : Nat)
  | sendGetData (addr : String) (op : OpType) (id : List Nat)
deriving Repr, DecidableEq

/-- The shared node state the Inv arm of serve touches: the blocks-in-transit
list and the mempool key set. -/
structure NodeState where
  transit : List (List Nat)
  mempool_keys : List String
deriving Repr, DecidableEq

/-- Remove the first occurrence of a hash (BlockInTransit::remove). -/
def removeFirst (h : List Nat) : List (List Nat) → List (List Nat)
  | [] => []
  | x :: rest => if x = h then rest else x :: removeFirst h rest

/-- Models the Package::Inv arm of serve. For blocks: append the items to
blocks-in-transit, unwrap the first item (none models the panic on an empty
list), request it and drop it from the transit list. For transactions:
unwrap the first item and request it unless it is already pooled. -/
def serve_inv (st : NodeState) (addr_from : String) (op : OpType)
    (items : List (List Nat)) : Option (NodeState × List NetAction) :=
  match op with
  | .block =>
    let transit2 := st.transit ++ items
    match items.head? with
    | none => none
    | some block_hash =>
      some ({ st with transit := removeFirst block_hash transit2 },
            [NetAction.sendGetData addr_from .block block_hash])
  | .tx =>
    match items.head? with
    | none => none
    | some txid =>
      if st.mempool_keys.contains (hex_encode txid) then some (st, [])
      else some (st, [NetAction.sendGetData addr_from .tx txid])

/-- Models the closure Server::run spawns per accepted connection: both
match arms are empty, so the stream and every package on it are ignored. -/
def accept_handler (conn : Option (List Package)) : List NetAction := []

/-- Models Server::run: bind, send one Version to the central node when the
bind address differs from it, then accept connections forever, handing each
to accept_handler. none models the get_best_height panic on a dangling tip. -/
def server_run (bt : BlockTree) (addr : String) (conns : List (Option (List Package))) :
    Option (List NetAction) :=
  if addr = CENTRAL_NODE then
    some ((conns.map accept_handler).flatten)
  else
    (get_best_height bt).map
      (fun h => NetAction.sendVersion CENTRAL_NODE h :: (conns.map accept_handler).flatten)

/-! ## Claim C4: proof of work -/

/-- With MAX_NONCE = 0 the while guard of ProofOfWork::run fails at once:
for every block and target the result is nonce 0 and the hex of the empty
byte vector. -/
theorem pow_run_stuck (b : Block) (target : Int) : pow_run b target = (0, "") := rfl

def c4_target : Int := 2 ^ 248

def c4_block : Block := block_new c4_target 0 "None" [] 0

/-- Claim C4, refuted on the code: the source fixes MAX_NONCE = 0, so
ProofOfWork::run returns (0, hex of the empty vector) without hashing
anything, and the (nonce, hash) pair stored by Block::new does not satisfy
the claimed condition: the stored hash is empty, not the 64-character hex
of the SHA-256 of the prepared header data for the stored nonce. -/
theorem claim_C4 :
    MAX_NONCE = 0 ∧
    pow_run c4_block c4_target = (0, "") ∧
    c4_block.hash = "" ∧
    c4_block.nonce = 0 ∧
    c4_block.hash ≠ hex_encode (sha256_digest (prepare_data c4_block c4_block.nonce)) := by
  refine ⟨rfl, pow_run_stuck c4_block c4_target, rfl, rfl, ?_⟩
  decide

/-! ## Claim C5: the accept loop of Server::run -/

theorem accept_handlers_silent (conns : List (Option (List Package))) :
    (conns.map accept_handler).flatten = [] := by
  induction conns with
  | nil => rfl
  | cons c rest ih => simp [accept_handler, ih]

/-- Claim C5: Server::run never processes inbound packages. Whatever the
accepted connections carry, the spawned handlers perform no protocol action
(their match arms are empty and serve is never called), and the only action
of run is the single initial Version package to the central node when the
bind address differs from CENTRAL_NODE. -/
theorem claim_C5 (bt : BlockTree) (addr : String) (conns : List (Option (List Package))) :
    server_run bt addr conns =
      if addr = CENTRAL_NODE then some []
      else (get_best_height bt).map (fun h => [NetAction.sendVersion CENTRAL_NODE h]) := by
  unfold server_run
  by_cases haddr : addr = CENTRAL_NODE
  · simp [haddr, accept_handlers_silent]
  · simp only [haddr, if_false]
    cases get_best_height bt with
    | none => rfl
    | some h => simp [accept_handlers_silent]

/-- Witness for C5: a non-central address with two inbound connections that
carry packages; no action results beyond the single Version send. -/
theorem claim_C5_witness :
    server_run { entries := [("g", { timestamp := 0, pre_block_hash := "None", hash := "g",
                                     transactions := [], nonce := 0, height := 0 })], tip := "g" }
      "127.0.0.1:2002"
      [some [Package.getBlocks "p", Package.inv "p" OpType.block [[1]]], none] =
      some [NetAction.sendVersion CENTRAL_NODE 0] := by
  rw [claim_C5]
  decide

/-! ## Claim C10: serve panics on an empty Inv -/

/-- Claim C10: the Inv arm of serve unwraps the first element of the item
list, so an Inv package with an empty items list makes the handler panic
(none) for both op_types, while any nonempty Inv is handled. -/
theorem claim_C10 (st : NodeState) (addr : String) (op : OpType) :
    serve_inv st addr op [] = none ∧
    ∀ x rest, (serve_inv st addr op (x :: rest)).isSome = true := by
  constructor
  · cases op <;> rfl
  · intro x rest
    cases op
    · simp only [serve_inv, List.head?_cons]
      split <;> simp
    · simp [serve_inv]

/-- Witness for C10: the concrete empty-items Inv packages panic, a
nonempty one is served. -/
theorem claim_C10_witness :
    serve_inv { transit := [], mempool_keys := [] } "127.0.0.1:2003" OpType.block [] = none ∧
    serve_inv { transit := [], mempool_keys := [] } "127.0.0.1:2003" OpType.tx [] = none ∧
    (serve_inv { transit := [], mempool_keys := [] } "127.0.0.1:2003" OpType.block [[7]]).isSome = true := by
  refine ⟨(claim_C10 _ "127.0.0.1:2003" OpType.block).1, (claim_C10 _ "127.0.0.1:2003" OpType.tx).1,
    (claim_C10 _ "127.0.0.1:2003" OpType.block).2 [7] []⟩

/-! ## Claim C3: the output loop of Blockchain::find_utxo -/

/-- Prior transaction T with two outputs (indices 0 and 1). -/
def c3_T : Transaction :=
  { id := [9], vin := [{ txid := [], vout := 0, signature := [3], pub_key := [] }],
    vout := [{ value := 5, pub_key_hash := [1] }, { value := 6, pub_key_hash := [2] }] }

/-- Spender B consuming only output (T, 0). -/
def c3_B : Transaction :=
  { id := [1], vin := [{ txid := [9], vout := 0, signature := [], pub_key := [7] }],
    vout := [{ value := 5, pub_key_hash := [3] }] }

def c3_genesis : Block :=
  { timestamp := 0, pre_block_hash := "None", hash := "g", transactions := [c3_T],
    nonce := 0, height := 0 }

def c3_b1 : Block :=
  { timestamp := 1, pre_block_hash := "g", hash := "h", transactions := [c3_B],
    nonce := 0, height := 1 }

def c3_chain : List Block := [c3_b1, c3_genesis]

/-- Claim C3, refuted on the code: in this two-block chain only (T, 0) is
ever spent, so by the claim the result should keep T's output 1; but the
continue targets the labelled transaction loop, so once index 0 is found
spent the whole transaction T is abandoned and the unspent output (T, 1)
is missing from the result (T has no entry at all). B's own output is
present, and the chain's only non-coinbase input really is (txid [9], 0). -/
theorem claim_C3 :
    lookupKey (hex_encode [9]) (find_utxo c3_chain) = none ∧
    lookupKey (hex_encode [1]) (find_utxo c3_chain) =
      some [{ value := 5, pub_key_hash := [3] }] ∧
    ((c3_chain.map (fun b =>
        (b.transactions.filter (fun t => !t.is_coinbase)).map (fun t =>
          t.vin.map (fun i => (i.txid, i.vout))))).flatten).flatten = [([9], 0)] := by
  refine ⟨?_, ?_, ?_⟩ <;> decide

/-! ## Claim C2: incremental UTXO update versus a full rebuild -/

/-- Prior transaction A with two outputs. -/
def c2_A : Transaction :=
  { id := [9], vin := [{ txid := [], vout := 0, signature := [3], pub_key := [] }],
    vout := [{ value := 5, pub_key_hash := [1] }, { value := 6, pub_key_hash := [2] }] }

/-- B spends (A, 0). -/
def c2_B : Transaction :=
  { id := [1], vin := [{ txid := [9], vout := 0, signature := [], pub_key := [7] }],
    vout := [{ value := 5, pub_key_hash := [3] }] }

/-- C spends (A, 1). -/
def c2_C : Transaction :=
  { id := [2], vin := [{ txid := [9], vout := 1, signature := [], pub_key := [7] }],
    vout := [{ value := 6, pub_key_hash := [3] }] }

def c2_genesis : Block :=
  { timestamp := 0, pre_block_hash := "None", hash := "g", transactions := [c2_A],
    nonce := 0, height := 0 }

def c2_b1 : Block :=
  { timestamp := 1, pre_block_hash := "g", hash := "h", transactions := [c2_B, c2_C],
    nonce := 0, height := 1 }

def c2_bt0 : BlockTree := { entries := [("g", c2_genesis)], tip := "g" }

/-- Chainstate after reindex on the one-block chain, then add_block and
update for the block spending both outputs of A. -/
def c2_incremental : Option Chainstate :=
  (reindex [c2_genesis]).bind (fun cs => utxo_update cs c2_b1)

/-- Claim C2, refuted on the code: after applying the block in which B and C
spend both outputs of A, the incrementally updated chainstate still maps A's
txid to the single output that the first positional removal left behind
(UTXOSet::update removes output indices positionally from the compacted
stored list), while a full find_utxo rebuild of the grown chain has no entry
for A at all. add_block itself stores the block and advances the tip. -/
theorem claim_C2 :
    add_block c2_bt0 c2_b1 =
      some { entries := [("g", c2_genesis), ("h", c2_b1)], tip := "h" } ∧
    (add_block c2_bt0 c2_b1).map (fun bt => chain_of bt) = some [c2_b1, c2_genesis] ∧
    c2_incremental.map (fun cs => lookupKey [9] cs) =
      some (some [{ value := 6, pub_key_hash := [2] }]) ∧
    (reindex [c2_b1, c2_genesis]).map (fun cs => lookupKey [9] cs) = some none := by
  refine ⟨?_, ?_, ?_, ?_⟩ <;> decide

/-! ## Claim C6: add_block and best-height monotonicity -/

theorem lookupKey_upsert_self {K V : Type} [DecidableEq K] (k : K) (v : V) (m : List (K × V)) :
    lookupKey k (upsert k v m) = some v := by
  induction m with
  | nil => simp [upsert, lookupKey]
  | cons p rest ih =>
    by_cases hk : k = p.1
    · simp [upsert, hk, lookupKey]
    · simp [upsert, hk, lookupKey, ih]

theorem lookupKey_upsert_other {K V : Type} [DecidableEq K] (k k2 : K) (v : V)
    (m : List (K × V)) (hne : k2 ≠ k) : lookupKey k2 (upsert k v m) = lookupKey k2 m := by
  induction m with
  | nil => simp [upsert, lookupKey, hne]
  | cons p rest ih =>
    by_cases hk : k = p.1
    · subst hk
      simp [upsert, lookupKey, hne]
    · simp only [upsert, hk, if_false]
      by_cases hk2 : k2 = p.1
      · simp [lookupKey, hk2]
      · simp [lookupKey, hk2, ih]

/-- One store operation of the kind the claim ranges over. -/
inductive ChainOp
  | mine (timestamp : Int) (txs : List Transaction)
  | add (b : Block)

def chain_step (vOracle : List Nat → List Nat → List Nat → Bool) (target : Int)
    (bt : BlockTree) : ChainOp → Option BlockTree
  | .mine ts txs => (mine_block vOracle target ts bt txs).map Prod.fst
  | .add b => add_block bt b

def run_ops (vOracle : List Nat → List Nat → List Nat → Bool) (target : Int) :
    BlockTree → List ChainOp → Option BlockTree
  | bt, [] => some bt
  | bt, op :: rest =>
    (chain_step vOracle target bt op).bind (fun bt2 => run_ops vOracle target bt2 rest)

theorem add_block_mono (bt : BlockTree) (b : Block) (bt2 : BlockTree) (h0 : Nat)
    (hstep : add_block bt b = some bt2) (hbest : get_best_height bt = some h0) :
    ∃ h2, get_best_height bt2 = some h2 ∧ h0 ≤ h2 := by
  obtain ⟨tb, htb, htbh⟩ : ∃ tb, lookupKey bt.tip bt.entries = some tb ∧ tb.height = h0 := by
    unfold get_best_height at hbest
    cases hl : lookupKey bt.tip bt.entries with
    | none => rw [hl] at hbest; simp at hbest
    | some tb => rw [hl] at hbest; simp at hbest; exact ⟨tb, rfl, hbest⟩
  unfold add_block at hstep
  by_cases hpresent : (lookupKey b.hash bt.entries).isSome
  · rw [if_pos hpresent] at hstep
    cases hstep
    exact ⟨h0, hbest, le_rfl⟩
  · rw [if_neg hpresent] at hstep
    have htipne : bt.tip ≠ b.hash := by
      intro he
      rw [← he, htb] at hpresent
      exact hpresent rfl
    have hl2 : lookupKey bt.tip (upsert b.hash b bt.entries) = some tb := by
      rw [lookupKey_upsert_other b.hash bt.tip b bt.entries htipne, htb]
    simp only [hl2, Option.some.injEq] at hstep
    by_cases hgt : tb.height < b.height
    · rw [← hstep]
      refine ⟨b.height, ?_, by omega⟩
      unfold get_best_height
      simp [hgt, lookupKey_upsert_self]
    · rw [← hstep]
      refine ⟨h0, ?_, le_rfl⟩
      show (lookupKey (if tb.height < b.height then b.hash else bt.tip)
        (upsert b.hash b bt.entries)).map Block.height = some h0
      rw [if_neg hgt, hl2]
      simp [htbh]

theorem mine_block_mono (vOracle : List Nat → List Nat → List Nat → Bool) (target : Int)
    (ts : Int) (bt : BlockTree) (txs : List Transaction) (bt2 : BlockTree) (blk : Block)
    (h0 : Nat) (hstep : mine_block vOracle target ts bt txs = some (bt2, blk))
    (hbest : get_best_height bt = some h0) :
    ∃ h2, get_best_height bt2 = some h2 ∧ h0 ≤ h2 := by
  unfold mine_block at hstep
  by_cases hverify :
      txs.all (fun t => tx_verify (find_transaction (chain_of bt)) vOracle t == some true)
  · rw [if_pos hverify, hbest] at hstep
    simp only [Option.some_bind] at hstep
    injection hstep with hpair
    injection hpair with h1 h2
    refine ⟨h0 + 1, ?_, by omega⟩
    rw [← h1]
    unfold get_best_height
    simp [lookupKey_upsert_self, block_new]
  · rw [if_neg hverify] at hstep
    simp at hstep

theorem run_ops_mono (vOracle : List Nat → List Nat → List Nat → Bool) (target : Int) :
    ∀ ops bt bt2 h0 h2, run_ops vOracle target bt ops = some bt2 →
    get_best_height bt = some h0 → get_best_height bt2 = some h2 → h0 ≤ h2 := by
  intro ops
  induction ops with
  | nil =>
    intro bt bt2 h0 h2 hrun hb hb2
    cases hrun
    rw [hb] at hb2
    cases hb2
    exact le_rfl
  | cons op rest ih =>
    intro bt bt2 h0 h2 hrun hb hb2
    unfold run_ops at hrun
    cases hstep : chain_step vOracle target bt op with
    | none => rw [hstep] at hrun; simp at hrun
    | some btm =>
      rw [hstep] at hrun
      simp only [Option.some_bind] at hrun
      have hm : ∃ hm0, get_best_height btm = some hm0 ∧ h0 ≤ hm0 := by
        cases op with
        | mine ts txs =>
          replace hstep : (mine_block vOracle target ts bt txs).map Prod.fst = some btm := hstep
          cases hmb : mine_block vOracle target ts bt txs with
          | none => rw [hmb] at hstep; simp at hstep
          | some r =>
            obtain ⟨rbt, rblk⟩ := r
            rw [hmb] at hstep
            simp at hstep
            subst hstep
            exact mine_block_mono vOracle target ts bt txs _ rblk h0 hmb hb
        | add b =>
          exact add_block_mono bt b btm h0 hstep hb
      obtain ⟨hm0, hbm, hle⟩ := hm
      exact le_trans hle (ih btm bt2 hm0 h2 hrun hbm hb2)

/-- Claim C6: Blockchain::add_block is a no-op when the block hash is
already stored; otherwise it inserts the block and moves the tip (key and
cache together) to the new block exactly when the new height is strictly
greater than the current tip block's height; and get_best_height is
non-decreasing across any successful sequence of mine_block and add_block
calls. -/
theorem claim_C6 :
    (∀ bt : BlockTree, ∀ b : Block,
      (lookupKey b.hash bt.entries).isSome → add_block bt b = some bt) ∧
    (∀ bt : BlockTree, ∀ b tip_block : Block,
      lookupKey b.hash bt.entries = none →
      lookupKey bt.tip (upsert b.hash b bt.entries) = some tip_block →
      add_block bt b = some { entries := upsert b.hash b bt.entries,
                              tip := if tip_block.height < b.height then b.hash else bt.tip }) ∧
    (∀ (vOracle : List Nat → List Nat → List Nat → Bool) (target : Int)
       (ops : List ChainOp) (bt bt2 : BlockTree) (h0 h2 : Nat),
      run_ops vOracle target bt ops = some bt2 →
      get_best_height bt = some h0 → get_best_height bt2 = some h2 → h0 ≤ h2) := by
  refine ⟨?_, ?_, ?_⟩
  · intro bt b hpresent
    unfold add_block
    rw [if_pos hpresent]
  · intro bt b tip_block habsent htip
    unfold add_block
    rw [if_neg (by simp [habsent])]
    simp only [htip]
  · intro vOracle target ops bt bt2 h0 h2 hrun hb hb2
    exact run_ops_mono vOracle target ops bt bt2 h0 h2 hrun hb hb2

/-- Witness for C6: the concrete two-block store. Re-adding the stored
genesis is a no-op; adding the height-1 block moves the tip; and a run of
one add_block step takes the best height from 0 to 1. -/
theorem claim_C6_witness :
    add_block c2_bt0 c2_genesis = some c2_bt0 ∧
    add_block c2_bt0 c2_b1 = some { entries := upsert c2_b1.hash c2_b1 c2_bt0.entries,
                                    tip := if c2_genesis.height < c2_b1.height then c2_b1.hash
                                           else c2_bt0.tip } ∧
    (0 : Nat) ≤ 1 := by
  refine ⟨claim_C6.1 c2_bt0 c2_genesis (by decide), claim_C6.2.1 c2_bt0 c2_b1 c2_genesis
    (by decide) (by decide), ?_⟩
  exact claim_C6.2.2 (fun _ _ _ => true) c4_target [ChainOp.add c2_b1] c2_bt0
    { entries := [("g", c2_genesis), ("h", c2_b1)], tip := "h" } 0 1
    (by decide) (by decide) (by decide)

/-! ## Claim C8: Transaction::verify -/

/-- Spec-side per-input check, following the claim's words: the signature
stored in the input verifies under the input's pub_key over the trimmed
copy's recomputed id, the trimmed copy having this input's pub_key set to
the referenced prior output's pub_key_hash. -/
def input_check (findTx : List Nat → Option Transaction)
    (vOracle : List Nat → List Nat → List Nat → Bool)
    (base : Transaction) (i : Nat) (vin : TXInput) : Bool :=
  match findTx vin.txid with
  | none => false
  | some prev =>
    match prev.vout.get? vin.vout with
    | none => false
    | some out => vOracle vin.pub_key vin.signature (input_message base i out.pub_key_hash)

theorem verify_inputs_all (findTx : List Nat → Option Transaction)
    (vOracle : List Nat → List Nat → List Nat → Bool) (base : Transaction) :
    ∀ (l : List TXInput) (i : Nat),
    (∀ vin ∈ l, ∃ prev out, findTx vin.txid = some prev ∧ prev.vout.get? vin.vout = some out) →
    verify_inputs findTx vOracle base i l =
      some (((l.enumFrom i).all (fun p => input_check findTx vOracle base p.1 p.2))) := by
  intro l
  induction l with
  | nil => intro i _; rfl
  | cons vin rest ih =>
    intro i hprev
    obtain ⟨prev, out, hp, ho⟩ := hprev vin (List.mem_cons_self vin rest)
    have hrest : ∀ v ∈ rest, ∃ prev out, findTx v.txid = some prev ∧
        prev.vout.get? v.vout = some out :=
      fun v hv => hprev v (List.mem_cons_of_mem vin hv)
    have hcheck : input_check findTx vOracle base i vin =
        vOracle vin.pub_key vin.signature (input_message base i out.pub_key_hash) := by
      simp only [input_check, hp, ho]
    simp only [verify_inputs, hp, ho, Option.bind_eq_bind, Option.some_bind,
      List.enumFrom, List.all_cons, hcheck]
    by_cases hv : vOracle vin.pub_key vin.signature (input_message base i out.pub_key_hash)
    · rw [if_pos hv, hv, ih (i + 1) hrest]
      simp
    · rw [if_neg hv]
      simp only [Bool.not_eq_true] at hv
      rw [hv]
      simp [pure]

/-- Claim C8: is_coinbase means exactly one input with empty pub_key;
verify accepts every coinbase; and on a non-coinbase transaction whose
referenced prior outputs all resolve, verify returns true exactly when
every input passes the per-input signature check in index order (so it is
false as soon as any input fails). -/
theorem claim_C8 (findTx : List Nat → Option Transaction)
    (vOracle : List Nat → List Nat → List Nat → Bool) (t : Transaction) :
    (t.is_coinbase = true ↔ t.vin.length = 1 ∧ ∀ i ∈ t.vin, i.pub_key = []) ∧
    (t.is_coinbase = true → tx_verify findTx vOracle t = some true) ∧
    (t.is_coinbase = false →
      (∀ vin ∈ t.vin, ∃ prev out, findTx vin.txid = some prev ∧
        prev.vout.get? vin.vout = some out) →
      tx_verify findTx vOracle t =
        some ((t.vin.enum).all
          (fun p => input_check findTx vOracle (trimmed_copy t) p.1 p.2))) := by
  refine ⟨?_, ?_, ?_⟩
  · unfold Transaction.is_coinbase
    cases hv : t.vin with
    | nil => simp
    | cons a rest =>
      cases rest with
      | nil => simp [List.isEmpty_iff]
      | cons a2 rest2 => simp
  · intro hcb
    unfold tx_verify
    rw [hcb]
    rfl
  · intro hncb hprev
    unfold tx_verify
    rw [hncb]
    simp only [Bool.false_eq_true, if_false]
    exact verify_inputs_all findTx vOracle (trimmed_copy t) t.vin 0 hprev

/-- Witness for C8: the coinbase c2_A verifies; the spender c3_B, whose
prior transaction resolves in the two-block chain, verifies under an
always-true oracle exactly as the per-input conjunction says. -/
theorem claim_C8_witness :
    tx_verify (find_transaction c3_chain) (fun _ _ _ => true) c2_A = some true ∧
    tx_verify (find_transaction c3_chain) (fun _ _ _ => true) c3_B =
      some ((c3_B.vin.enum).all
        (fun p => input_check (find_transaction c3_chain) (fun _ _ _ => true)
          (trimmed_copy c3_B) p.1 p.2)) := by
  constructor
  · exact (claim_C8 (find_transaction c3_chain) (fun _ _ _ => true) c2_A).2.1 (by decide)
  · refine (claim_C8 (find_transaction c3_chain) (fun _ _ _ => true) c3_B).2.2 (by decide) ?_
    intro vin hv
    have : vin = { txid := [9], vout := 0, signature := [], pub_key := [7] } := by
      simpa [c3_B] using hv
    subst this
    exact ⟨c3_T, { value := 5, pub_key_hash := [1] }, by decide, by decide⟩

/-! ## Claim C7: new_utxo_transaction -/

/-- The unsigned spend transaction new_utxo_transaction builds before
signing: one input per selected (txid, vout) pair, each carrying an empty
signature and the sender's raw public key, the given outputs, and an id
equal to the hash of this very transaction with id cleared. -/
def unsigned_spend (pk : List Nat) (pairs : List (List Nat × Nat)) (outs : List TXOutput) :
    Transaction :=
  { id := tx_hash { id := [], vin := pairs.map (fun p =>
      { txid := p.1, vout := p.2, signature := [], pub_key := pk }), vout := outs },
    vin := pairs.map (fun p => { txid := p.1, vout := p.2, signature := [], pub_key := pk }),
    vout := outs }

/-- Claim C7: with the sender's wallet resolved, the construction aborts
with the insufficient-funds error exactly when the accumulated value found
by find_spendable_outputs is below the amount; and on success the unsigned
transaction has one input per selected (txid, vout) pair carrying the raw
public key and an empty signature, the output list is the single payment
when the accumulation equals the amount and payment plus change when it
exceeds it, and the result is the signed form of that unsigned
transaction. -/
theorem claim_C7 (wallets : List (String × Wallet)) (chain : List Block) (cs : Chainstate)
    (oracle : List Nat → List Nat → List Nat) (from_addr to_addr : String) (amount : Int)
    (w : Wallet) (hw : lookupKey from_addr wallets = some w) :
    (new_utxo_transaction wallets chain cs oracle from_addr to_addr amount =
        Except.error TxErr.insufficientFunds ↔
      (find_spendable_outputs cs (hash_pub_key w.public_key) amount).1 < amount) ∧
    (∀ tx, new_utxo_transaction wallets chain cs oracle from_addr to_addr amount =
        Except.ok tx →
      ∃ pairs out1 outs,
        selected_pairs (find_spendable_outputs cs (hash_pub_key w.public_key) amount).2 =
          some pairs ∧
        txoutput_new amount to_addr = some out1 ∧
        ((find_spendable_outputs cs (hash_pub_key w.public_key) amount).1 = amount ∧
            outs = [out1] ∨
          amount < (find_spendable_outputs cs (hash_pub_key w.public_key) amount).1 ∧
            ∃ chg, txoutput_new
                ((find_spendable_outputs cs (hash_pub_key w.public_key) amount).1 - amount)
                from_addr = some chg ∧ outs = [out1, chg]) ∧
        sign_tx (find_transaction chain) oracle w.pkcs8
          (unsigned_spend w.public_key pairs outs) = some tx) := by
  simp only [new_utxo_transaction, hw]
  by_cases hlt : (find_spendable_outputs cs (hash_pub_key w.public_key) amount).1 < amount
  · rw [if_pos hlt]
    refine ⟨⟨fun _ => hlt, fun _ => rfl⟩, ?_⟩
    intro tx htx
    simp at htx
  · rw [if_neg hlt]
    cases hbi : build_inputs w.public_key
        (find_spendable_outputs cs (hash_pub_key w.public_key) amount).2 with
    | none =>
      refine ⟨⟨fun h => ?_, fun h => absurd h hlt⟩, fun tx htx => ?_⟩
      · simp at h
      · simp at htx
    | some inputs =>
      cases ho1 : txoutput_new amount to_addr with
      | none =>
        refine ⟨⟨fun h => ?_, fun h => absurd h hlt⟩, fun tx htx => ?_⟩
        · simp at h
        · simp at htx
      | some out1 =>
        obtain ⟨pairs, hsp, hinputs⟩ :
            ∃ pairs, selected_pairs
                (find_spendable_outputs cs (hash_pub_key w.public_key) amount).2 = some pairs ∧
              inputs = pairs.map (fun p =>
                { txid := p.1, vout := p.2, signature := [], pub_key := w.public_key }) := by
          unfold build_inputs at hbi
          cases hsp : selected_pairs
              (find_spendable_outputs cs (hash_pub_key w.public_key) amount).2 with
          | none => rw [hsp] at hbi; simp at hbi
          | some pairs =>
            rw [hsp] at hbi
            simp only [Option.map_some', Option.some.injEq] at hbi
            exact ⟨pairs, rfl, hbi.symm⟩
        by_cases hgt : amount < (find_spendable_outputs cs (hash_pub_key w.public_key) amount).1
        · simp only [if_pos hgt]
          cases ho2 : txoutput_new
              ((find_spendable_outputs cs (hash_pub_key w.public_key) amount).1 - amount)
              from_addr with
          | none =>
            refine ⟨⟨fun h => ?_, fun h => absurd h hlt⟩, fun tx htx => ?_⟩
            · simp at h
            · simp at htx
          | some chg =>
            simp only [Option.map_some']
            cases hsg : sign_tx (find_transaction chain) oracle w.pkcs8
                { id := tx_hash { id := [], vin := inputs, vout := [out1, chg] },
                  vin := inputs, vout := [out1, chg] } with
            | none =>
              refine ⟨⟨fun h => ?_, fun h => absurd h hlt⟩, fun tx htx => ?_⟩
              · simp at h
              · simp at htx
            | some tx2 =>
              refine ⟨⟨fun h => ?_, fun h => absurd h hlt⟩, fun tx htx => ?_⟩
              · simp at h
              · simp at htx
                refine ⟨pairs, out1, [out1, chg], hsp, rfl,
                  Or.inr ⟨hgt, chg, rfl, rfl⟩, ?_⟩
                unfold unsigned_spend
                rw [← hinputs, ← htx]
                exact hsg
        · simp only [if_neg hgt]
          cases hsg : sign_tx (find_transaction chain) oracle w.pkcs8
              { id := tx_hash { id := [], vin := inputs, vout := [out1] },
                vin := inputs, vout := [out1] } with
          | none =>
            refine ⟨⟨fun h => ?_, fun h => absurd h hlt⟩, fun tx htx => ?_⟩
            · simp at h
            · simp at htx
          | some tx2 =>
            refine ⟨⟨fun h => ?_, fun h => absurd h hlt⟩, fun tx htx => ?_⟩
            · simp at h
            · simp at htx
              refine ⟨pairs, out1, [out1], hsp, rfl,
                Or.inl ⟨le_antisymm (not_lt.mp hgt) (not_lt.mp hlt), rfl⟩, ?_⟩
              unfold unsigned_spend
              rw [← hinputs, ← htx]
              exact hsg

/-! ## Claim C1: transaction ids and signing -/

/-- Clear every input signature. -/
def clear_sigs (t : Transaction) : Transaction :=
  { t with vin := t.vin.map (fun i => { i with signature := [] }) }

theorem signed_inputs_shape (findTx : List Nat → Option Transaction)
    (oracle : List Nat → List Nat → List Nat) (pkcs8 : List Nat) (base : Transaction) :
    ∀ (l : List TXInput) (i : Nat) (l2 : List TXInput),
    signed_inputs findTx oracle pkcs8 base i l = some l2 →
    l2.map (fun x => { x with signature := [] }) =
      l.map (fun x => { x with signature := [] }) := by
  intro l
  induction l with
  | nil =>
    intro i l2 h
    simp only [signed_inputs] at h
    cases h
    rfl
  | cons vin rest ih =>
    intro i l2 h
    simp only [signed_inputs, Option.bind_eq_bind] at h
    cases hp : findTx vin.txid with
    | none => rw [hp] at h; simp at h
    | some prev =>
      rw [hp] at h
      simp only [Option.some_bind] at h
      cases ho : prev.vout.get? vin.vout with
      | none => rw [ho] at h; simp at h
      | some out =>
        rw [ho] at h
        simp only [Option.some_bind] at h
        cases hr : signed_inputs findTx oracle pkcs8 base (i + 1) rest with
        | none => rw [hr] at h; simp at h
        | some rest2 =>
          rw [hr] at h
          simp only [Option.some_bind, pure, Option.some.injEq] at h
          rw [← h]
          simp only [List.map_cons]
          rw [ih (i + 1) rest2 hr]

theorem sign_tx_shape (findTx : List Nat → Option Transaction)
    (oracle : List Nat → List Nat → List Nat) (pkcs8 : List Nat) (t t2 : Transaction)
    (h : sign_tx findTx oracle pkcs8 t = some t2) :
    t2.id = t.id ∧ t2.vout = t.vout ∧
    t2.vin.map (fun x => { x with signature := [] }) =
      t.vin.map (fun x => { x with signature := [] }) := by
  unfold sign_tx at h
  cases hv : signed_inputs findTx oracle pkcs8 (trimmed_copy t) 0 t.vin with
  | none => rw [hv] at h; simp at h
  | some vin2 =>
    rw [hv] at h
    simp only [Option.bind_eq_bind, Option.some_bind, pure, Option.some.injEq] at h
    rw [← h]
    exact ⟨rfl, rfl, signed_inputs_shape findTx oracle pkcs8 (trimmed_copy t) t.vin 0 vin2 hv⟩

/-- Success shape of new_utxo_transaction: the result is the signing of an
unsigned_spend transaction under the sender's key. -/
theorem new_utxo_ok_unsigned (wallets : List (String × Wallet)) (chain : List Block)
    (cs : Chainstate) (oracle : List Nat → List Nat → List Nat)
    (from_addr to_addr : String) (amount : Int) (tx : Transaction)
    (htx : new_utxo_transaction wallets chain cs oracle from_addr to_addr amount =
      Except.ok tx) :
    ∃ w pairs outs, lookupKey from_addr wallets = some w ∧
      sign_tx (find_transaction chain) oracle w.pkcs8
        (unsigned_spend w.public_key pairs outs) = some tx := by
  unfold new_utxo_transaction at htx
  cases hw : lookupKey from_addr wallets with
  | none => rw [hw] at htx; simp at htx
  | some w =>
    rw [hw] at htx
    simp only [] at htx
    by_cases hlt : (find_spendable_outputs cs (hash_pub_key w.public_key) amount).1 < amount
    · rw [if_pos hlt] at htx
      simp at htx
    · rw [if_neg hlt] at htx
      cases hbi : build_inputs w.public_key
          (find_spendable_outputs cs (hash_pub_key w.public_key) amount).2 with
      | none => rw [hbi] at htx; simp at htx
      | some inputs =>
        rw [hbi] at htx
        obtain ⟨pairs, hsp, hinputs⟩ :
            ∃ pairs, selected_pairs
                (find_spendable_outputs cs (hash_pub_key w.public_key) amount).2 = some pairs ∧
              inputs = pairs.map (fun p =>
                { txid := p.1, vout := p.2, signature := [], pub_key := w.public_key }) := by
          unfold build_inputs at hbi
          cases hsp : selected_pairs
              (find_spendable_outputs cs (hash_pub_key w.public_key) amount).2 with
          | none => rw [hsp] at hbi; simp at hbi
          | some pairs =>
            rw [hsp] at hbi
            simp only [Option.map_some', Option.some.injEq] at hbi
            exact ⟨pairs, rfl, hbi.symm⟩
        cases ho1 : txoutput_new amount to_addr with
        | none => rw [ho1] at htx; simp at htx
        | some out1 =>
          rw [ho1] at htx
          simp only [] at htx
          cases houts : (if amount < (find_spendable_outputs cs
              (hash_pub_key w.public_key) amount).1 then
              (txoutput_new ((find_spendable_outputs cs
                (hash_pub_key w.public_key) amount).1 - amount) from_addr).map
                  (fun o2 => [out1, o2])
            else some [out1]) with
          | none => rw [houts] at htx; simp at htx
          | some outs =>
            rw [houts] at htx
            simp only [] at htx
            cases hsg : sign_tx (find_transaction chain) oracle w.pkcs8
                { id := tx_hash { id := [], vin := inputs, vout := outs },
                  vin := inputs, vout := outs } with
            | none => rw [hsg] at htx; simp at htx
            | some tx2 =>
              rw [hsg] at htx
              simp only [Except.ok.injEq] at htx
              refine ⟨w, pairs, outs, rfl, ?_⟩
              unfold unsigned_spend
              rw [← hinputs, hsg, htx]

/-- Claim C1, amended. Coinbase: the stored id is the SHA-256 of the
serialization with id cleared, exactly as claimed. Spend: the stored id is
the SHA-256 of the serialization with id cleared and the input signatures
cleared, i.e. of the pre-signing form: signing happens after the id is
computed and does not refresh it. -/
theorem claim_C1 :
    (∀ to_addr uuid tx, new_coinbase_tx to_addr uuid = some tx →
      tx.id = sha256_digest (tx_serialize { tx with id := [] })) ∧
    (∀ (wallets : List (String × Wallet)) (chain : List Block) (cs : Chainstate)
       (oracle : List Nat → List Nat → List Nat) (from_addr to_addr : String)
       (amount : Int) (tx : Transaction),
      new_utxo_transaction wallets chain cs oracle from_addr to_addr amount = Except.ok tx →
      tx.id = sha256_digest (tx_serialize (clear_sigs { tx with id := [] }))) := by
  constructor
  · intro to_addr uuid tx h
    unfold new_coinbase_tx at h
    cases ho : txoutput_new SUBSIDY to_addr with
    | none => simp [ho] at h
    | some o =>
      rw [ho] at h
      simp only [Option.map_some', Option.some.injEq] at h
      rw [← h]
      rfl
  · intro wallets chain cs oracle from_addr to_addr amount tx h
    obtain ⟨w, pairs, outs, hw, hsg⟩ :=
      new_utxo_ok_unsigned wallets chain cs oracle from_addr to_addr amount tx h
    obtain ⟨tid, tvin, tvout⟩ := tx
    obtain ⟨hid, hvout, hvin⟩ := sign_tx_shape (find_transaction chain) oracle w.pkcs8
      (unsigned_spend w.public_key pairs outs) ⟨tid, tvin, tvout⟩ hsg
    have hid2 : tid = (unsigned_spend w.public_key pairs outs).id := hid
    have hvout2 : tvout = outs := hvout
    have hUc : (unsigned_spend w.public_key pairs outs).vin.map
        (fun x => { x with signature := [] }) =
        pairs.map (fun p =>
          { txid := p.1, vout := p.2, signature := [], pub_key := w.public_key }) := by
      show (pairs.map _).map _ = _
      rw [List.map_map]
      rfl
    have hvin2 : tvin.map (fun x => { x with signature := [] }) =
        pairs.map (fun p =>
          { txid := p.1, vout := p.2, signature := [], pub_key := w.public_key }) := by
      have h0 : tvin.map (fun x => { x with signature := [] }) =
          (unsigned_spend w.public_key pairs outs).vin.map
            (fun x => { x with signature := [] }) := hvin
      rw [h0, hUc]
    show tid = sha256_digest (tx_serialize
      { id := [], vin := tvin.map (fun i => { i with signature := [] }), vout := tvout })
    rw [hvin2, hvout2, hid2]
    rfl

instance : DecidableEq (Except TxErr Transaction) := fun a b =>
  match a, b with
  | .ok x, .ok y =>
    if h : x = y then isTrue (by rw [h]) else isFalse (by simp [h])
  | .error x, .error y =>
    if h : x = y then isTrue (by rw [h]) else isFalse (by simp [h])
  | .ok _, .error _ => isFalse (by simp)
  | .error _, .ok _ => isFalse (by simp)

/-! The concrete spend scenario: one wallet, one prior transaction holding a
single 7-valued output locked to the wallet, a chainstate indexing it, and a
spend of the full 7 to a valid address. -/

def c1_pk : List Nat := [1]

def c1_wallet : Wallet := { pkcs8 := [2], public_key := c1_pk }

def c1_wallets : List (String × Wallet) := [("a", c1_wallet)]

def c1_prev : Transaction :=
  { id := [9], vin := [{ txid := [], vout := 0, signature := [3], pub_key := [] }],
    vout := [{ value := 7, pub_key_hash := hash_pub_key c1_pk }] }

def c1_genesis : Block :=
  { timestamp := 0, pre_block_hash := "None", hash := "g", transactions := [c1_prev],
    nonce := 0, height := 0 }

def c1_chain : List Block := [c1_genesis]

def c1_cs : Chainstate := [([9], [{ value := 7, pub_key_hash := hash_pub_key c1_pk }])]

def c1_to : String :=
  base58_encode (0 :: List.replicate 20 0 ++ checksum (0 :: List.replicate 20 0))

def c1_oracle : List Nat → List Nat → List Nat := fun _ _ => List.replicate 64 1

def c1_uuid : List Nat := [4, 4, 4, 4, 4, 4, 4, 4, 4, 4, 4, 4, 4, 4, 4, 4]

def c1_tx : Transaction :=
  ((new_utxo_transaction c1_wallets c1_chain c1_cs c1_oracle "a" c1_to 7).toOption).getD default

def c1_cb : Transaction := (new_coinbase_tx c1_to c1_uuid).getD default

/-- Claim C1 as stated is false on the code: this spend transaction, built
by new_utxo_transaction, has nonempty signatures in every input after
signing, and its stored id differs from the SHA-256 of its serialization
with only the id cleared (the id was computed before the signatures were
filled in). -/
theorem claim_C1_counterexample :
    new_utxo_transaction c1_wallets c1_chain c1_cs c1_oracle "a" c1_to 7 = Except.ok c1_tx ∧
    (∀ i ∈ c1_tx.vin, i.signature ≠ []) ∧
    c1_tx.id ≠ sha256_digest (tx_serialize { c1_tx with id := [] }) := by
  refine ⟨?_, ?_, ?_⟩ <;> decide

/-- Witness for the amended C1 at the concrete scenario: the coinbase id
matches the digest of its id-cleared serialization, and the spend id
matches the digest of its id-cleared, signature-cleared serialization. -/
theorem claim_C1_witness :
    c1_cb.id = sha256_digest (tx_serialize { c1_cb with id := [] }) ∧
    c1_tx.id = sha256_digest (tx_serialize (clear_sigs { c1_tx with id := [] })) := by
  constructor
  · exact claim_C1.1 c1_to c1_uuid c1_cb (by decide)
  · exact claim_C1.2 c1_wallets c1_chain c1_cs c1_oracle "a" c1_to 7 c1_tx (by decide)

/-- Witness for C7 at the concrete scenario, by applying the theorem with
the wallet lookup discharged. -/
theorem claim_C7_witness :
    (new_utxo_transaction c1_wallets c1_chain c1_cs c1_oracle "a" c1_to 7 =
        Except.error TxErr.insufficientFunds ↔
      (find_spendable_outputs c1_cs (hash_pub_key c1_wallet.public_key) 7).1 < 7) ∧
    (∀ tx, new_utxo_transaction c1_wallets c1_chain c1_cs c1_oracle "a" c1_to 7 =
        Except.ok tx →
      ∃ pairs out1 outs,
        selected_pairs (find_spendable_outputs c1_cs (hash_pub_key c1_wallet.public_key) 7).2 =
          some pairs ∧
        txoutput_new 7 c1_to = some out1 ∧
        ((find_spendable_outputs c1_cs (hash_pub_key c1_wallet.public_key) 7).1 = 7 ∧
            outs = [out1] ∨
          7 < (find_spendable_outputs c1_cs (hash_pub_key c1_wallet.public_key) 7).1 ∧
            ∃ chg, txoutput_new
                ((find_spendable_outputs c1_cs (hash_pub_key c1_wallet.public_key) 7).1 - 7)
                "a" = some chg ∧ outs = [out1, chg]) ∧
        sign_tx (find_transaction c1_chain) c1_oracle c1_wallet.pkcs8
          (unsigned_spend c1_wallet.public_key pairs outs) = some tx) :=
  claim_C7 c1_wallets c1_chain c1_cs c1_oracle "a" c1_to 7 c1_wallet (by decide)
